import Mathlib

/-!
Verification of the referral-network core: the `ReferralGraph` mutation layer
(`addUser`, `addReferral`, `validateAcyclicity`) and the `NetworkAnalyzer`
metric layer (`calculateTotalReach`, `getTopReferrersByReach`,
`calculateUniqueReachExpansion`, `calculateFlowCentrality`, caching).

Modelling conventions, mirroring the TypeScript source:
* a JS `Map` is an association list in insertion order; `Map.set` on an
  existing key updates in place, otherwise appends;
* a JS `Set` is a duplicate-free list in insertion order; `Set.add` appends
  when the element is absent;
* thrown `ReferralNetworkError`s become an `Except ReferralError` component of
  the result; a mutating operation returns the (unchanged) graph next to the
  error, since the source throws before performing any mutation;
* the BFS/DFS `while` loops over a queue/stack become recursion on an explicit
  fuel argument; the fuel passed by the wrappers (`bfsFuel` / `dfsFuel`) is an
  upper bound on the number of loop iterations, so the zero-fuel branch is
  never taken (the sufficiency is proved below);
* `Infinity` distances become `none : Option Nat`.
-/

/-- Error kinds of `src/types/errors` (`ReferralError`). -/
inductive ReferralError where
  | INVALID_USER_ID
  | SELF_REFERRAL
  | DUPLICATE_REFERRER
  | CYCLE_DETECTED
  | USER_NOT_FOUND
  | INVALID_PROBABILITY
  | INVALID_PARAMETER
  | CAPACITY_EXCEEDED
deriving DecidableEq, Repr

/-- The `User` record of `src/types/user`. -/
structure User where
  id : String
  directReferrals : List String
  isActive : Bool
  referralCapacity : Nat
  referralsMade : Nat
  referrerId : Option String
deriving DecidableEq, Repr

/-- Insertion-ordered association list standing for a JS `Map`. -/
def mapHas {α : Type} (m : List (String × α)) (k : String) : Bool :=
  m.any (fun p => p.1 == k)

/-- Model of `Map.get`: the value at the first (only) entry for `k`. -/
def mapGet {α : Type} (m : List (String × α)) (k : String) : Option α :=
  (m.find? (fun p => p.1 == k)).map (fun p => p.2)

/-- Model of `Map.set`: update the entry for `k` in place if present, append
otherwise. -/
def mapSet {α : Type} (m : List (String × α)) (k : String) (v : α) :
    List (String × α) :=
  match m with
  | [] => [(k, v)]
  | p :: rest => if p.1 = k then (k, v) :: rest else p :: mapSet rest k v

/-- Model of `Set.add`: append if absent. -/
def setAdd (s : List String) (x : String) : List String :=
  if x ∈ s then s else s ++ [x]

/-- Build a JS `Set` from an iterable: fold `Set.add` over it. -/
def toSetList (l : List String) : List String :=
  l.foldl setAdd []

/-- The `ReferralGraph` state: user map plus both adjacency maps. -/
structure ReferralGraph where
  users : List (String × User)
  adjacencyList : List (String × List String)
  reverseAdjacencyList : List (String × List String)
deriving DecidableEq, Repr

/-- The graph produced by the `ReferralGraph` constructor. -/
def ReferralGraph.empty : ReferralGraph := ⟨[], [], []⟩

/-- The validity check of `addUser`: the source throws `INVALID_USER_ID` when
the id is falsy (empty) or all-whitespace (`userId.trim() === ""`); both
cases are exactly "every character is whitespace". -/
def isBlank (s : String) : Bool :=
  s.data.all Char.isWhitespace

/-- Embedding of `ReferralGraph.addUser`. -/
def ReferralGraph.addUser (g : ReferralGraph) (userId : String) :
    ReferralGraph × Except ReferralError Bool :=
  if isBlank userId then (g, .error .INVALID_USER_ID)
  else if mapHas g.users userId then (g, .ok false)
  else
    ({ users := mapSet g.users userId
         { id := userId, directReferrals := [], isActive := true,
           referralCapacity := 10, referralsMade := 0, referrerId := none },
       adjacencyList := mapSet g.adjacencyList userId [],
       reverseAdjacencyList := mapSet g.reverseAdjacencyList userId [] },
     .ok true)

/-- Embedding of `ReferralGraph.hasUser`. -/
def ReferralGraph.hasUser (g : ReferralGraph) (userId : String) : Bool :=
  mapHas g.users userId

/-- Embedding of `ReferralGraph.getDirectReferrals`: empty for an unknown id, otherwise the
adjacency entry. -/
def ReferralGraph.getDirectReferrals (g : ReferralGraph) (userId : String) :
    List String :=
  if g.hasUser userId then (mapGet g.adjacencyList userId).getD [] else []

/-- Embedding of `ReferralGraph.getReferrer` (`user?.referrerId`). -/
def ReferralGraph.getReferrer (g : ReferralGraph) (userId : String) :
    Option String :=
  (mapGet g.users userId).bind (fun u => u.referrerId)

/-- Embedding of `ReferralGraph.getAllUsers` (`Array.from(this.users.keys())`). -/
def ReferralGraph.getAllUsers (g : ReferralGraph) : List String :=
  g.users.map Prod.fst

/-- Successors read straight off the adjacency map, the way
`validateAcyclicity` reads them (no `hasUser` guard). -/
def adjSucc (g : ReferralGraph) (v : String) : List String :=
  (mapGet g.adjacencyList v).getD []

/-- Fuel that bounds the iterations of the `validateAcyclicity` DFS loop:
one initial stack entry plus, for every adjacency key, one visit plus one
push per out-edge. -/
def dfsFuel (g : ReferralGraph) : Nat :=
  1 + (((g.adjacencyList.map Prod.fst).dedup).map
        (fun k => 1 + (adjSucc g k).length)).sum

/-- The DFS loop of `validateAcyclicity`: stack-based, popping from the end of
the JS array.  The stack is modelled with its top at the head, so a JS
push-loop over the direct referrals appends their reversal at the head.
Returns `false` as soon as `referrerId` is reached. -/
def dfsCheck (g : ReferralGraph) (referrerId : String) :
    Nat → List String → List String → Bool
  | 0, _, _ => true
  | _ + 1, [], _ => true
  | n + 1, current :: stack, visited =>
    if current ∈ visited then dfsCheck g referrerId n stack visited
    else if current = referrerId then false
    else
      dfsCheck g referrerId n
        (((adjSucc g current).filter
            (fun r => !decide (r ∈ visited ++ [current]))).reverse ++ stack)
        (visited ++ [current])

/-- Embedding of `ReferralGraph.validateAcyclicity`: false if either id is absent,
otherwise DFS from the candidate looking for the referrer. -/
def ReferralGraph.validateAcyclicity (g : ReferralGraph)
    (referrerId candidateId : String) : Bool :=
  if !(mapHas g.users referrerId) || !(mapHas g.users candidateId) then false
  else dfsCheck g referrerId (dfsFuel g) [candidateId] []

/-- Embedding of `ReferralGraph.addReferral`: the five checks in source order, then the
mutation of the candidate record, the referrer record and both adjacency
maps. -/
def ReferralGraph.addReferral (g : ReferralGraph)
    (referrerId candidateId : String) :
    ReferralGraph × Except ReferralError Bool :=
  if referrerId = "" ∨ candidateId = "" then (g, .error .INVALID_USER_ID)
  else if referrerId = candidateId then (g, .error .SELF_REFERRAL)
  else
    match mapGet g.users referrerId, mapGet g.users candidateId with
    | some referrer, some candidate =>
      if (candidate.referrerId).isSome then (g, .error .DUPLICATE_REFERRER)
      else if !(g.validateAcyclicity referrerId candidateId) then
        (g, .error .CYCLE_DETECTED)
      else
        ({ users := mapSet
             (mapSet g.users candidateId
               { candidate with referrerId := some referrerId })
             referrerId
             { referrer with
               directReferrals := setAdd referrer.directReferrals candidateId,
               referralsMade := referrer.referralsMade + 1 },
           adjacencyList := mapSet g.adjacencyList referrerId
             (setAdd ((mapGet g.adjacencyList referrerId).getD []) candidateId),
           reverseAdjacencyList := mapSet g.reverseAdjacencyList candidateId
             (setAdd ((mapGet g.reverseAdjacencyList candidateId).getD [])
               referrerId) },
         .ok true)
    | _, _ => (g, .error .USER_NOT_FOUND)

/-- A mutation call against the graph API. -/
inductive Op where
  | addUser (id : String)
  | addReferral (referrerId candidateId : String)

/-- Run one mutation, keeping the previous state when the call fails (the
source throws before mutating, so the caller's graph is unchanged). -/
def applyOp (g : ReferralGraph) : Op → ReferralGraph
  | .addUser id => (g.addUser id).1
  | .addReferral r c => (g.addReferral r c).1

/-- Run a sequence of mutations from the constructor state. -/
def runOps (ops : List Op) : ReferralGraph :=
  ops.foldl applyOp ReferralGraph.empty

/-- The analyzer's three cache mappings (`NetworkCacheImpl`).  A distance of
`none` stands for `Infinity`. -/
structure NetworkCache where
  totalReachCache : List (String × Nat)
  shortestPathCache : List (String × List (String × Option Nat))
  reachSetsCache : List (String × List String)
deriving DecidableEq, Repr

/-- The cache built by the `NetworkCacheImpl` constructor: all three mappings
empty. -/
def emptyCache : NetworkCache := ⟨[], [], []⟩

/-- Embedding of `NetworkAnalyzer.clearCache` / `NetworkCacheImpl.clear`: empties all three
mappings. -/
def clearCache (_cache : NetworkCache) : NetworkCache := ⟨[], [], []⟩

/-- Fuel bounding the iterations of every analyzer BFS loop: one initial
queue entry plus, for every user, one visit plus one push per out-edge. -/
def bfsFuel (g : ReferralGraph) : Nat :=
  1 + (((g.users.map Prod.fst).dedup).map
        (fun k => 1 + (g.getDirectReferrals k).length)).sum

/-- The counting BFS loop of `calculateTotalReach`: FIFO queue, visited set,
counter incremented for every newly visited node other than the start. -/
def reachBFS (g : ReferralGraph) (start : String) :
    Nat → List String → List String → Nat → Nat
  | 0, _, _, totalReach => totalReach
  | _ + 1, [], _, totalReach => totalReach
  | n + 1, current :: queue, visited, totalReach =>
    if current ∈ visited then reachBFS g start n queue visited totalReach
    else
      reachBFS g start n
        (queue ++ (g.getDirectReferrals current).filter
          (fun r => !decide (r ∈ visited ++ [current])))
        (visited ++ [current])
        (if current = start then totalReach else totalReach + 1)

/-- Embedding of `NetworkAnalyzer.calculateTotalReach`: cache hit, unknown-id zero (not
cached), or BFS count (cached). -/
def calculateTotalReach (g : ReferralGraph) (cache : NetworkCache)
    (userId : String) : Nat × NetworkCache :=
  match mapGet cache.totalReachCache userId with
  | some n => (n, cache)
  | none =>
    if !(g.hasUser userId) then (0, cache)
    else
      let totalReach := reachBFS g userId (bfsFuel g) [userId] [] 0
      (totalReach,
       { cache with
         totalReachCache := mapSet cache.totalReachCache userId totalReach })

/-- The set-building BFS loop of `computeDownstreamReachSet`: identical
traversal, accumulating every newly visited node other than the start. -/
def reachSetBFS (g : ReferralGraph) (start : String) :
    Nat → List String → List String → List String → List String
  | 0, _, _, reachSet => reachSet
  | _ + 1, [], _, reachSet => reachSet
  | n + 1, current :: queue, visited, reachSet =>
    if current ∈ visited then reachSetBFS g start n queue visited reachSet
    else
      reachSetBFS g start n
        (queue ++ (g.getDirectReferrals current).filter
          (fun r => !decide (r ∈ visited ++ [current])))
        (visited ++ [current])
        (if current = start then reachSet else reachSet ++ [current])

/-- Embedding of `NetworkAnalyzer.computeDownstreamReachSet`. -/
def computeDownstreamReachSet (g : ReferralGraph) (userId : String) :
    List String :=
  if !(g.hasUser userId) then []
  else reachSetBFS g userId (bfsFuel g) [userId] [] []

/-- Embedding of `NetworkAnalyzer.precomputeReachSets`: reuse a non-empty cache mapping,
otherwise fill it for every user. -/
def precomputeReachSets (g : ReferralGraph) (cache : NetworkCache) :
    List (String × List String) × NetworkCache :=
  if cache.reachSetsCache.length > 0 then (cache.reachSetsCache, cache)
  else
    let m := g.getAllUsers.foldl
      (fun m u =>
        if mapHas m u then m else mapSet m u (computeDownstreamReachSet g u))
      cache.reachSetsCache
    (m, { cache with reachSetsCache := m })

/-- Inner loop of the greedy round of `calculateUniqueReachExpansion`: the new
candidates a user would add are the uncovered part of its reach set, collected
into a JS `Set`. -/
def newCands (reachSets : List (String × List String)) (covered : List String)
    (userId : String) : List String :=
  toSetList (((mapGet reachSets userId).getD []).filter
    (fun c => !decide (c ∈ covered)))

/-- One comparison of the per-round scan: keep the candidate if its unique
reach strictly exceeds the best so far. -/
def findBestStep (reachSets : List (String × List String))
    (covered : List String) (best : Option String × Nat × List String)
    (userId : String) : Option String × Nat × List String :=
  let cands := newCands reachSets covered userId
  if cands.length > best.2.1 then (some userId, cands.length, cands)
  else best

/-- The per-round scan of `calculateUniqueReachExpansion`: iterate the
remaining users in order, keeping the first user whose unique reach strictly
exceeds the best so far (initially `null`/0). -/
def findBest (reachSets : List (String × List String)) (covered : List String)
    (remaining : List String) : Option String × Nat × List String :=
  remaining.foldl (findBestStep reachSets covered) (none, 0, [])

/-- The greedy `while` loop of `calculateUniqueReachExpansion`.  Each
continuing round removes the selected user from `remaining`, so
`remaining.length` bounds the rounds and serves as fuel. -/
def greedyLoop (reachSets : List (String × List String)) :
    Nat → List String → List String → List (String × Nat) →
    List (String × Nat)
  | 0, _, _, acc => acc
  | n + 1, remaining, covered, acc =>
    if remaining.length = 0 then acc
    else
      match findBest reachSets covered remaining with
      | (none, _, _) => acc
      | (some best, bestReach, bestNew) =>
        if bestReach = 0 then acc
        else
          greedyLoop reachSets n (remaining.erase best)
            (covered ++ bestNew.filter (fun c => !decide (c ∈ covered)))
            (acc ++ [(best, bestReach)])

/-- Embedding of `NetworkAnalyzer.calculateUniqueReachExpansion`.  `new Set(allUsers)` is
the deduplicated user list (duplicate-free already for graphs built through
the API). -/
def calculateUniqueReachExpansion (g : ReferralGraph) (cache : NetworkCache) :
    List (String × Nat) × NetworkCache :=
  let rs := precomputeReachSets g cache
  let remaining := g.getAllUsers.dedup
  (greedyLoop rs.1 remaining.length remaining [] [], rs.2)

/-- Stable insertion of a ranked user into a descending-by-score list, the
order produced by the stable JS sort with comparator `b.score - a.score`. -/
def insertDesc (x : String × Nat) : List (String × Nat) → List (String × Nat)
  | [] => [x]
  | y :: ys => if x.2 < y.2 then y :: insertDesc x ys else x :: y :: ys

/-- Stable sort by descending score. -/
def sortByScoreDesc : List (String × Nat) → List (String × Nat)
  | [] => []
  | x :: xs => insertDesc x (sortByScoreDesc xs)

/-- One iteration of the ranking loop of `getTopReferrersByReach`: compute
the user's reach through the shared cache and keep it when strictly
positive. -/
def topStep (g : ReferralGraph) (st : List (String × Nat) × NetworkCache)
    (u : String) : List (String × Nat) × NetworkCache :=
  let r := calculateTotalReach g st.2 u
  (if r.1 > 0 then st.1 ++ [(u, r.1)] else st.1, r.2)

/-- Embedding of `NetworkAnalyzer.getTopReferrersByReach`.  `k` is an integer; the source
guard `k <= 0 || !Number.isInteger(k)` reduces to `k ≤ 0` since non-integral
numbers are outside the model.  The loop computes every user's reach through
the shared cache, keeps the strictly positive ones, sorts descending and
takes the first `k`. -/
def getTopReferrersByReach (g : ReferralGraph) (cache : NetworkCache)
    (k : Int) : Except ReferralError (List (String × Nat)) × NetworkCache :=
  if k ≤ 0 then (.error .INVALID_PARAMETER, cache)
  else
    let folded := g.getAllUsers.foldl (topStep g)
      (([] : List (String × Nat)), cache)
    (.ok ((sortByScoreDesc folded.1).take k.toNat), folded.2)

/-- One relaxation step of the shortest-path BFS: skip visited targets,
record/update a strictly smaller distance and push the pair. -/
def spRelax (visited : List String) (distance : Nat)
    (st : List (String × Nat) × List (String × Nat)) (rid : String) :
    List (String × Nat) × List (String × Nat) :=
  if rid ∈ visited then st
  else
    match mapGet st.1 rid with
    | some old =>
      if distance + 1 < old then
        (mapSet st.1 rid (distance + 1), st.2 ++ [(rid, distance + 1)])
      else st
    | none => (mapSet st.1 rid (distance + 1), st.2 ++ [(rid, distance + 1)])

/-- The BFS loop of `computeShortestPathsFromSource`, queueing
(node, distance) pairs. -/
def spBFS (g : ReferralGraph) :
    Nat → List (String × Nat) → List String → List (String × Nat) →
    List (String × Nat)
  | 0, _, _, distances => distances
  | _ + 1, [], _, distances => distances
  | n + 1, (userId, distance) :: queue, visited, distances =>
    if userId ∈ visited then spBFS g n queue visited distances
    else
      let st := (g.getDirectReferrals userId).foldl
        (spRelax (visited ++ [userId]) distance) (distances, [])
      spBFS g n (queue ++ st.2) (visited ++ [userId]) st.1

/-- Embedding of `NetworkAnalyzer.computeShortestPathsFromSource`: BFS distances, then
`Infinity` (`none`) for every user without an entry. -/
def computeShortestPathsFromSource (g : ReferralGraph) (sourceUserId : String) :
    List (String × Option Nat) :=
  let d := spBFS g (bfsFuel g) [(sourceUserId, 0)] [] [(sourceUserId, 0)]
  g.getAllUsers.foldl
    (fun dd u => if mapHas dd u then dd else mapSet dd u none)
    (d.map (fun p => (p.1, some p.2)))

/-- Embedding of `NetworkAnalyzer.computeAllPairsShortestPaths` with its cache reuse. -/
def computeAllPairsShortestPaths (g : ReferralGraph) (cache : NetworkCache) :
    List (String × List (String × Option Nat)) × NetworkCache :=
  if cache.shortestPathCache.length > 0 then (cache.shortestPathCache, cache)
  else
    let m := g.getAllUsers.foldl
      (fun m s =>
        if mapHas m s then m else mapSet m s (computeShortestPathsFromSource g s))
      cache.shortestPathCache
    (m, { cache with shortestPathCache := m })

/-- Embedding of `NetworkAnalyzer.calculateFlowCentrality`: for every ordered pair (s, t)
at finite distance, credit every distinct intermediate v with
`dist(s,v) + dist(v,t) = dist(s,t)`; keep positive scores, sort descending. -/
def calculateFlowCentrality (g : ReferralGraph) (cache : NetworkCache) :
    List (String × Nat) × NetworkCache :=
  let allUsers := g.getAllUsers
  let sp := computeAllPairsShortestPaths g cache
  let scores0 : List (String × Nat) := allUsers.foldl (fun m u => mapSet m u 0) []
  let scores := allUsers.foldl (fun sc s =>
    allUsers.foldl (fun sc t =>
      if s = t then sc
      else
        match mapGet sp.1 s, mapGet sp.1 t with
        | some sourceDistances, some _ =>
          match mapGet sourceDistances t with
          | some (some shortest) =>
            allUsers.foldl (fun sc v =>
              if v = s ∨ v = t then sc
              else
                match mapGet sourceDistances v,
                      (mapGet sp.1 v).bind (fun vd => mapGet vd t) with
                | some (some dsv), some (some dvt) =>
                  if dsv + dvt = shortest then
                    mapSet sc v ((mapGet sc v).getD 0 + 1)
                  else sc
                | _, _ => sc) sc
          | _ => sc
        | _, _ => sc) sc) scores0
  (sortByScoreDesc (scores.foldl
      (fun acc p => if p.2 > 0 then acc ++ [p] else acc) []),
   sp.2)

/-! Specification-side notions: the edge relations realised by the graph
state, reachability as their reflexive-transitive closure, acyclicity, and
the structural invariants addUser/addReferral are meant to maintain. -/

/-- The raw adjacency-map edge relation (the one `validateAcyclicity`
traverses). -/
def adjEdge (g : ReferralGraph) (a b : String) : Prop := b ∈ adjSucc g a

/-- Reachability along raw adjacency edges. -/
def ReachAdj (g : ReferralGraph) : String → String → Prop :=
  Relation.ReflTransGen (adjEdge g)

/-- The direct-referral edge relation as exposed by `getDirectReferrals`
(the one the analyzer traverses). -/
def drlEdge (g : ReferralGraph) (a b : String) : Prop :=
  b ∈ g.getDirectReferrals a

/-- Reachability along `getDirectReferrals` edges. -/
def ReachDRL (g : ReferralGraph) : String → String → Prop :=
  Relation.ReflTransGen (drlEdge g)

/-- No directed cycle in the adjacency-map edge relation. -/
def AcyclicAdj (g : ReferralGraph) : Prop :=
  ∀ v, ¬ Relation.TransGen (adjEdge g) v v

/-- No directed cycle in the `getDirectReferrals` edge relation. -/
def AcyclicDRL (g : ReferralGraph) : Prop :=
  ∀ v, ¬ Relation.TransGen (drlEdge g) v v

/-- An adjacency edge a → b exists exactly when b's user record names a as
its referrer; in particular every node has at most one incoming edge. -/
def EdgeConsistent (g : ReferralGraph) : Prop :=
  ∀ a b, adjEdge g a b ↔
    ∃ u, mapGet g.users b = some u ∧ u.referrerId = some a

/-- Every recorded referrer is an existing user. -/
def RefPointsToUser (g : ReferralGraph) : Prop :=
  ∀ b u r, mapGet g.users b = some u → u.referrerId = some r →
    mapHas g.users r = true

/-- The invariant maintained across mutations. -/
def WFGraph (g : ReferralGraph) : Prop :=
  EdgeConsistent g ∧ RefPointsToUser g ∧ AcyclicAdj g

/-- The adjacency-only effect of a successful `addReferral`: add candidate to
the referrer's out-set. -/
def addEdgeAdj (g : ReferralGraph) (referrerId candidateId : String) :
    ReferralGraph :=
  { g with
    adjacencyList :=
      mapSet g.adjacencyList referrerId
        (setAdd ((mapGet g.adjacencyList referrerId).getD []) candidateId) }

/-- Analysis vehicle for both analyzer BFS loops: the same traversal,
returning the final visited list (in visit order). -/
def bfsVisit (g : ReferralGraph) :
    Nat → List String → List String → List String
  | 0, _, visited => visited
  | _ + 1, [], visited => visited
  | n + 1, current :: queue, visited =>
    if current ∈ visited then bfsVisit g n queue visited
    else
      bfsVisit g n
        (queue ++ (g.getDirectReferrals current).filter
          (fun r => !decide (r ∈ visited ++ [current])))
        (visited ++ [current])

/-- The nodes a BFS run newly visits, in visit order, excluding `start` —
exactly what `reachSetBFS` appends to its accumulator and what `reachBFS`
counts. -/
def bfsNew (g : ReferralGraph) (start : String) :
    Nat → List String → List String → List String
  | 0, _, _ => []
  | _ + 1, [], _ => []
  | n + 1, current :: queue, visited =>
    if current ∈ visited then bfsNew g start n queue visited
    else
      (if current = start then [] else [current]) ++
      bfsNew g start n
        (queue ++ (g.getDirectReferrals current).filter
          (fun r => !decide (r ∈ visited ++ [current])))
        (visited ++ [current])

/-- Iteration potential of the analyzer BFS loops: queue length plus, for
every not-yet-visited user, one visit plus one push per out-edge.  It
strictly decreases at every loop iteration, so it bounds the remaining
iterations. -/
def phiBFS (g : ReferralGraph) (queue visited : List String) : Nat :=
  queue.length +
    ((((g.users.map Prod.fst).dedup).filter
        (fun k => !decide (k ∈ visited))).map
      (fun k => 1 + (g.getDirectReferrals k).length)).sum

/-- Iteration potential of the `validateAcyclicity` DFS loop. -/
def phiDFS (g : ReferralGraph) (stack visited : List String) : Nat :=
  stack.length +
    ((((g.adjacencyList.map Prod.fst).dedup).filter
        (fun k => !decide (k ∈ visited))).map
      (fun k => 1 + (adjSucc g k).length)).sum

/-- Derived notation for the reach score `getTopReferrersByReach` ranks by:
a fresh (empty-cache) `calculateTotalReach`. -/
def trFresh (g : ReferralGraph) (u : String) : Nat :=
  (calculateTotalReach g emptyCache u).1

/-- The full ranking `getTopReferrersByReach` draws from: every user with
strictly positive reach, paired with its reach. -/
def rankedAll (g : ReferralGraph) : List (String × Nat) :=
  (g.getAllUsers.filter (fun u => decide (0 < trFresh g u))).map
    (fun u => (u, trFresh g u))

/-! ### Basic facts about the JS `Map`/`Set` models -/

theorem mapHas_iff_mem_keys {α : Type} (m : List (String × α)) (k : String) :
    mapHas m k = true ↔ k ∈ m.map Prod.fst := by
  simp [mapHas, List.any_eq_true, List.mem_map]

theorem mapGet_isSome_iff {α : Type} (m : List (String × α)) (k : String) :
    (mapGet m k).isSome = true ↔ mapHas m k = true := by
  simp [mapGet, mapHas, List.find?_isSome, List.any_eq_true]

theorem mapGet_eq_none_iff {α : Type} (m : List (String × α)) (k : String) :
    mapGet m k = none ↔ mapHas m k = false := by
  rw [← Option.not_isSome_iff_eq_none, ← Bool.not_eq_true (mapHas m k),
    not_iff_not]
  exact mapGet_isSome_iff m k

theorem mapHas_of_mapGet_eq_some {α : Type} {m : List (String × α)}
    {k : String} {v : α} (h : mapGet m k = some v) : mapHas m k = true := by
  have := (mapGet_isSome_iff m k).mp (by simp [h])
  exact this

theorem mapGet_mapSet_self {α : Type} (m : List (String × α)) (k : String)
    (v : α) : mapGet (mapSet m k v) k = some v := by
  induction m with
  | nil => simp [mapSet, mapGet]
  | cons p rest ih =>
    by_cases h : p.1 = k
    · simp [mapSet, h, mapGet, List.find?]
    · simp only [mapSet, if_neg h]
      simp only [mapGet, List.find?]
      have hb : (p.1 == k) = false := by simp [h]
      rw [hb]
      exact ih

theorem mapGet_mapSet_ne {α : Type} (m : List (String × α)) {k k' : String}
    (v : α) (h : k' ≠ k) : mapGet (mapSet m k v) k' = mapGet m k' := by
  induction m with
  | nil =>
    simp only [mapSet, mapGet, List.find?]
    have h1 : (k == k') = false := by simp [Ne.symm h]
    rw [h1]
  | cons p rest ih =>
    by_cases hp : p.1 = k
    · simp only [mapSet, if_pos hp]
      simp only [mapGet, List.find?]
      have h1 : (k == k') = false := by simp [Ne.symm h]
      have h2 : (p.1 == k') = false := by simp [hp, Ne.symm h]
      rw [h1, h2]
    · simp only [mapSet, if_neg hp]
      simp only [mapGet, List.find?] at ih ⊢
      cases hb : (p.1 == k') with
      | true => rfl
      | false => exact ih

theorem mapSet_keys_of_has {α : Type} {m : List (String × α)} {k : String}
    (v : α) (h : mapHas m k = true) :
    (mapSet m k v).map Prod.fst = m.map Prod.fst := by
  induction m with
  | nil => simp [mapHas] at h
  | cons p rest ih =>
    by_cases hp : p.1 = k
    · simp [mapSet, hp]
    · have h' : mapHas rest k = true := by
        simp [mapHas, List.any_eq_true] at h ⊢
        rcases h with h | h
        · exact absurd h hp
        · exact h
      simp [mapSet, hp, ih h']

theorem mapSet_keys_of_not_has {α : Type} {m : List (String × α)} {k : String}
    (v : α) (h : mapHas m k = false) :
    (mapSet m k v).map Prod.fst = m.map Prod.fst ++ [k] := by
  induction m with
  | nil => simp [mapSet]
  | cons p rest ih =>
    have hp : ¬ p.1 = k := by
      intro hk
      simp [mapHas, List.any_eq_true] at h
      exact h.1 hk
    have h' : mapHas rest k = false := by
      simp [mapHas, List.any_eq_true] at h ⊢
      exact h.2
    simp [mapSet, hp, ih h']

theorem mem_setAdd {s : List String} {x y : String} :
    x ∈ setAdd s y ↔ x = y ∨ x ∈ s := by
  by_cases h : y ∈ s
  · simp only [setAdd, if_pos h]
    constructor
    · exact Or.inr
    · rintro (rfl | hx)
      · exact h
      · exact hx
  · simp [setAdd, if_neg h, or_comm]

theorem setAdd_nodup {s : List String} (h : s.Nodup) (y : String) :
    (setAdd s y).Nodup := by
  by_cases hy : y ∈ s
  · simpa [setAdd, if_pos hy]
  · simp [setAdd, if_neg hy, List.nodup_append, h, hy]

theorem subset_setAdd (s : List String) (y : String) : s ⊆ setAdd s y := by
  intro x hx
  exact mem_setAdd.mpr (Or.inr hx)

theorem mem_foldl_setAdd (l : List String) :
    ∀ (acc : List String) (x : String),
      x ∈ l.foldl setAdd acc ↔ x ∈ acc ∨ x ∈ l := by
  induction l with
  | nil => simp
  | cons a l ih =>
    intro acc x
    simp only [List.foldl_cons, ih, mem_setAdd, List.mem_cons]
    tauto

theorem mem_toSetList {l : List String} {x : String} :
    x ∈ toSetList l ↔ x ∈ l := by
  simp [toSetList, mem_foldl_setAdd]

theorem foldl_setAdd_nodup (l : List String) :
    ∀ acc : List String, acc.Nodup → (l.foldl setAdd acc).Nodup := by
  induction l with
  | nil => intro acc h; simpa
  | cons a l ih =>
    intro acc h
    exact ih (setAdd acc a) (setAdd_nodup h a)

theorem toSetList_nodup (l : List String) : (toSetList l).Nodup :=
  foldl_setAdd_nodup l [] List.nodup_nil

theorem toSetList_subset_of_subset {l l' : List String} (h : l ⊆ l') :
    toSetList l ⊆ toSetList l' := by
  intro x hx
  exact mem_toSetList.mpr (h (mem_toSetList.mp hx))

/-! ### The loop potentials decrease at every iteration -/

theorem filter_snoc_of_not_mem {keys : List String} (visited : List String)
    {c : String} (hc : c ∉ keys) :
    keys.filter (fun k => !decide (k ∈ visited ++ [c]))
      = keys.filter (fun k => !decide (k ∈ visited)) := by
  apply List.filter_congr
  intro k hk
  have hkc : k ≠ c := fun h => hc (h ▸ hk)
  simp [List.mem_append, hkc]

theorem sum_filter_snoc {keys visited : List String} {c : String}
    (w : String → Nat) (hnd : keys.Nodup) (hc : c ∈ keys)
    (hcv : c ∉ visited) :
    ((keys.filter (fun k => !decide (k ∈ visited ++ [c]))).map w).sum + w c
      = ((keys.filter (fun k => !decide (k ∈ visited))).map w).sum := by
  have hsplit : keys.filter (fun k => !decide (k ∈ visited ++ [c]))
      = (keys.filter (fun k => !decide (k ∈ visited))).filter
          (fun k => !decide (k = c)) := by
    rw [List.filter_filter]
    apply List.filter_congr
    intro k _
    by_cases h1 : k ∈ visited
    · simp [List.mem_append, h1]
    · by_cases h2 : k = c <;> simp [List.mem_append, h1, h2]
  rw [hsplit]
  have hLnd : (keys.filter (fun k => !decide (k ∈ visited))).Nodup :=
    hnd.filter _
  have hcL : c ∈ keys.filter (fun k => !decide (k ∈ visited)) := by
    simp [List.mem_filter, hc, hcv]
  have herase : (keys.filter (fun k => !decide (k ∈ visited))).filter
      (fun k => !decide (k = c))
      = (keys.filter (fun k => !decide (k ∈ visited))).erase c := by
    rw [hLnd.erase_eq_filter c]
    apply List.filter_congr
    intro k _
    by_cases h : k = c <;> simp [h]
  rw [herase]
  have hperm := (List.perm_cons_erase hcL).map w
  have hsum := hperm.sum_eq
  simp only [List.map_cons, List.sum_cons] at hsum
  omega

theorem adjSucc_eq_nil_of_not_mem_keys {g : ReferralGraph} {c : String}
    (h : c ∉ (g.adjacencyList.map Prod.fst).dedup) : adjSucc g c = [] := by
  have hhas : mapHas g.adjacencyList c = false := by
    rw [← Bool.not_eq_true]
    intro ht
    exact h (List.mem_dedup.mpr ((mapHas_iff_mem_keys _ _).mp ht))
  have := (mapGet_eq_none_iff g.adjacencyList c).mpr hhas
  simp [adjSucc, this]

theorem drl_eq_nil_of_not_mem_keys {g : ReferralGraph} {c : String}
    (h : c ∉ (g.users.map Prod.fst).dedup) : g.getDirectReferrals c = [] := by
  have hhas : g.hasUser c = false := by
    rw [← Bool.not_eq_true]
    intro ht
    exact h (List.mem_dedup.mpr ((mapHas_iff_mem_keys _ _).mp ht))
  simp [ReferralGraph.getDirectReferrals, hhas]

theorem phiDFS_skip (g : ReferralGraph) (current : String)
    (stack visited : List String) :
    phiDFS g stack visited < phiDFS g (current :: stack) visited := by
  simp [phiDFS]

theorem phiDFS_push (g : ReferralGraph) {current : String}
    (stack visited : List String) (hcv : current ∉ visited) :
    phiDFS g
      (((adjSucc g current).filter
          (fun r => !decide (r ∈ visited ++ [current]))).reverse ++ stack)
      (visited ++ [current])
      < phiDFS g (current :: stack) visited := by
  by_cases hk : current ∈ (g.adjacencyList.map Prod.fst).dedup
  · have hsum := sum_filter_snoc (fun k => 1 + (adjSucc g k).length)
      (List.nodup_dedup _) hk hcv
    simp only at hsum
    have hfl := List.length_filter_le
      (fun r => !decide (r ∈ visited ++ [current])) (adjSucc g current)
    simp only [phiDFS, List.length_append, List.length_reverse,
      List.length_cons]
    omega
  · have hnil := adjSucc_eq_nil_of_not_mem_keys hk
    have hfe := filter_snoc_of_not_mem visited hk
    simp only [phiDFS, hnil, List.filter_nil, List.reverse_nil,
      List.nil_append, List.length_cons, hfe]
    omega

theorem phiBFS_skip (g : ReferralGraph) (current : String)
    (queue visited : List String) :
    phiBFS g queue visited < phiBFS g (current :: queue) visited := by
  simp [phiBFS]

theorem phiBFS_push (g : ReferralGraph) {current : String}
    (queue visited : List String) (hcv : current ∉ visited) :
    phiBFS g
      (queue ++ (g.getDirectReferrals current).filter
        (fun r => !decide (r ∈ visited ++ [current])))
      (visited ++ [current])
      < phiBFS g (current :: queue) visited := by
  by_cases hk : current ∈ (g.users.map Prod.fst).dedup
  · have hsum := sum_filter_snoc (fun k => 1 + (g.getDirectReferrals k).length)
      (List.nodup_dedup _) hk hcv
    simp only at hsum
    have hfl := List.length_filter_le
      (fun r => !decide (r ∈ visited ++ [current])) (g.getDirectReferrals current)
    simp only [phiBFS, List.length_append, List.length_cons]
    omega
  · have hnil := drl_eq_nil_of_not_mem_keys hk
    have hfe := filter_snoc_of_not_mem visited hk
    simp only [phiBFS, hnil, List.filter_nil, List.append_nil,
      List.length_cons, hfe]
    omega

/-! ### Reachability closure -/

theorem reach_mem_of_closed {succ : String → List String} {S : List String}
    (hS : ∀ a ∈ S, ∀ b ∈ succ a, b ∈ S) {y x : String} (hy : y ∈ S)
    (h : Relation.ReflTransGen (fun a b => b ∈ succ a) y x) : x ∈ S := by
  induction h with
  | refl => exact hy
  | tail _ hbc ih => exact hS _ ih _ hbc

/-! ### Correctness of the `validateAcyclicity` DFS -/

theorem dfsCheck_false_reach {g : ReferralGraph} {r c : String} :
    ∀ (n : Nat) (stack visited : List String),
      (∀ y ∈ stack, ReachAdj g c y) →
      dfsCheck g r n stack visited = false → ReachAdj g c r := by
  intro n
  induction n with
  | zero => intro stack visited _ h; simp [dfsCheck] at h
  | succ n ih =>
    intro stack visited hstack h
    match stack with
    | [] => simp [dfsCheck] at h
    | current :: stack' =>
      simp only [dfsCheck] at h
      by_cases hv : current ∈ visited
      · rw [if_pos hv] at h
        exact ih stack' visited
          (fun y hy => hstack y (List.mem_cons_of_mem _ hy)) h
      · rw [if_neg hv] at h
        by_cases hre : current = r
        · exact hre ▸ hstack current (List.mem_cons_self _ _)
        · rw [if_neg hre] at h
          apply ih _ _ _ h
          intro y hy
          rcases List.mem_append.mp hy with hy | hy
          · rw [List.mem_reverse] at hy
            have hcur : ReachAdj g c current :=
              hstack current (List.mem_cons_self _ _)
            have hedge : y ∈ adjSucc g current := (List.mem_filter.mp hy).1
            exact Relation.ReflTransGen.tail hcur hedge
          · exact hstack y (List.mem_cons_of_mem _ hy)

theorem dfsCheck_true_not_reach {g : ReferralGraph} {r : String} :
    ∀ (n : Nat) (stack visited : List String),
      phiDFS g stack visited ≤ n →
      (∀ a ∈ visited, ∀ b ∈ adjSucc g a, b ∈ visited ∨ b ∈ stack) →
      r ∉ visited →
      dfsCheck g r n stack visited = true →
      ∀ y, y ∈ stack ∨ y ∈ visited → ¬ ReachAdj g y r := by
  intro n
  induction n with
  | zero =>
    intro stack visited hphi hcl hr h y hy hreach
    match stack with
    | [] =>
      have hyv : y ∈ visited := by
        rcases hy with hy | hy
        · exact absurd hy (List.not_mem_nil y)
        · exact hy
      have hclosed : ∀ a ∈ visited, ∀ b ∈ adjSucc g a, b ∈ visited := by
        intro a ha b hb
        rcases hcl a ha b hb with h' | h'
        · exact h'
        · exact absurd h' (List.not_mem_nil b)
      exact hr (reach_mem_of_closed hclosed hyv hreach)
    | current :: stack' =>
      simp [phiDFS] at hphi
  | succ n ih =>
    intro stack visited hphi hcl hr h y hy hreach
    match stack with
    | [] =>
      have hyv : y ∈ visited := by
        rcases hy with hy | hy
        · exact absurd hy (List.not_mem_nil y)
        · exact hy
      have hclosed : ∀ a ∈ visited, ∀ b ∈ adjSucc g a, b ∈ visited := by
        intro a ha b hb
        rcases hcl a ha b hb with h' | h'
        · exact h'
        · exact absurd h' (List.not_mem_nil b)
      exact hr (reach_mem_of_closed hclosed hyv hreach)
    | current :: stack' =>
      simp only [dfsCheck] at h
      by_cases hv : current ∈ visited
      · rw [if_pos hv] at h
        have hphi' : phiDFS g stack' visited ≤ n := by
          have := phiDFS_skip g current stack' visited
          omega
        have hcl' : ∀ a ∈ visited, ∀ b ∈ adjSucc g a,
            b ∈ visited ∨ b ∈ stack' := by
          intro a ha b hb
          rcases hcl a ha b hb with h' | h'
          · exact Or.inl h'
          · rcases List.mem_cons.mp h' with rfl | h''
            · exact Or.inl hv
            · exact Or.inr h''
        apply ih stack' visited hphi' hcl' hr h y _ hreach
        rcases hy with hy | hy
        · rcases List.mem_cons.mp hy with rfl | hy'
          · exact Or.inr hv
          · exact Or.inl hy'
        · exact Or.inr hy
      · rw [if_neg hv] at h
        by_cases hre : current = r
        · rw [if_pos hre] at h
          exact absurd h (by simp)
        · rw [if_neg hre] at h
          have hphi' : phiDFS g
              (((adjSucc g current).filter
                (fun x => !decide (x ∈ visited ++ [current]))).reverse ++ stack')
              (visited ++ [current]) ≤ n := by
            have := phiDFS_push g stack' visited hv
            omega
          have hcl' : ∀ a ∈ visited ++ [current], ∀ b ∈ adjSucc g a,
              b ∈ visited ++ [current] ∨
              b ∈ ((adjSucc g current).filter
                (fun x => !decide (x ∈ visited ++ [current]))).reverse ++ stack' := by
            intro a ha b hb
            rcases List.mem_append.mp ha with ha | ha
            · rcases hcl a ha b hb with h' | h'
              · exact Or.inl (List.mem_append.mpr (Or.inl h'))
              · rcases List.mem_cons.mp h' with rfl | h''
                · exact Or.inl (List.mem_append.mpr (Or.inr (List.mem_singleton.mpr rfl)))
                · exact Or.inr (List.mem_append.mpr (Or.inr h''))
            · rcases List.mem_singleton.mp ha with rfl
              by_cases hbv : b ∈ visited ++ [a]
              · exact Or.inl hbv
              · refine Or.inr (List.mem_append.mpr (Or.inl ?_))
                rw [List.mem_reverse]
                simp only [List.mem_filter]
                exact ⟨hb, by simp [hbv]⟩
          have hr' : r ∉ visited ++ [current] := by
            intro hmem
            rcases List.mem_append.mp hmem with hm | hm
            · exact hr hm
            · exact hre (List.mem_singleton.mp hm).symm
          apply ih _ _ hphi' hcl' hr' h y _ hreach
          rcases hy with hy | hy
          · rcases List.mem_cons.mp hy with rfl | hy'
            · exact Or.inr (List.mem_append.mpr (Or.inr (List.mem_singleton.mpr rfl)))
            · exact Or.inl (List.mem_append.mpr (Or.inr hy'))
          · exact Or.inr (List.mem_append.mpr (Or.inl hy))

theorem filter_not_mem_nil (l : List String) :
    l.filter (fun k => !decide (k ∈ ([] : List String))) = l := by
  simp

theorem phiDFS_init (g : ReferralGraph) (c : String) :
    phiDFS g [c] [] = dfsFuel g := by
  simp [phiDFS, dfsFuel, filter_not_mem_nil]

theorem validateAcyclicity_eq_false_iff (g : ReferralGraph) (r c : String) :
    g.validateAcyclicity r c = false ↔
      (mapHas g.users r = false ∨ mapHas g.users c = false ∨
        ReachAdj g c r) := by
  unfold ReferralGraph.validateAcyclicity
  cases hr : mapHas g.users r with
  | false => rw [if_pos (by simp [hr])]; simp
  | true =>
    cases hc : mapHas g.users c with
    | false => rw [if_pos (by simp [hc])]; simp
    | true =>
      rw [if_neg (by simp [hr, hc])]
      constructor
      · intro h
        refine Or.inr (Or.inr (dfsCheck_false_reach (dfsFuel g) [c] [] ?_ h))
        intro y hy
        rcases List.mem_singleton.mp hy with rfl
        exact Relation.ReflTransGen.refl
      · rintro (h | h | h)
        · cases h
        · cases h
        · by_contra hne
          have htrue : dfsCheck g r (dfsFuel g) [c] [] = true := by
            cases hdf : dfsCheck g r (dfsFuel g) [c] [] with
            | false => exact absurd hdf hne
            | true => rfl
          exact dfsCheck_true_not_reach (dfsFuel g) [c] []
            (le_of_eq (phiDFS_init g c)) (by simp) (List.not_mem_nil r) htrue
            c (Or.inl (List.mem_singleton.mpr rfl)) h

theorem validateAcyclicity_eq_true_iff (g : ReferralGraph) (r c : String) :
    g.validateAcyclicity r c = true ↔
      (mapHas g.users r = true ∧ mapHas g.users c = true ∧
        ¬ ReachAdj g c r) := by
  rw [← Bool.not_eq_false, validateAcyclicity_eq_false_iff]
  push_neg
  constructor
  · rintro ⟨h1, h2, h3⟩
    exact ⟨by simpa using h1, by simpa using h2, h3⟩
  · rintro ⟨h1, h2, h3⟩
    exact ⟨by simp [h1], by simp [h2], h3⟩

/-! ### Correctness of the analyzer BFS loops -/

theorem bfsVisit_sub (g : ReferralGraph) :
    ∀ (n : Nat) (q v : List String), v ⊆ bfsVisit g n q v := by
  intro n
  induction n with
  | zero => intro q v; simp only [bfsVisit]; exact fun x hx => hx
  | succ n ih =>
    intro q v
    match q with
    | [] => simp only [bfsVisit]; exact fun x hx => hx
    | current :: queue =>
      by_cases hv : current ∈ v
      · simp only [bfsVisit, if_pos hv]; exact ih _ _
      · simp only [bfsVisit, if_neg hv]
        exact fun x hx => ih _ _ (List.mem_append.mpr (Or.inl hx))

theorem bfsVisit_decomp (g : ReferralGraph) (start : String) :
    ∀ (n : Nat) (q v : List String),
      ∃ Δ, bfsVisit g n q v = v ++ Δ ∧
        bfsNew g start n q v = Δ.filter (fun x => !decide (x = start)) := by
  intro n
  induction n with
  | zero => intro q v; exact ⟨[], by simp [bfsVisit], by simp [bfsNew]⟩
  | succ n ih =>
    intro q v
    match q with
    | [] => exact ⟨[], by simp [bfsVisit], by simp [bfsNew]⟩
    | current :: queue =>
      by_cases hv : current ∈ v
      · obtain ⟨Δ, h1, h2⟩ := ih queue v
        exact ⟨Δ, by simp only [bfsVisit, if_pos hv]; exact h1,
          by simp only [bfsNew, if_pos hv]; exact h2⟩
      · obtain ⟨Δ, h1, h2⟩ := ih
          (queue ++ (g.getDirectReferrals current).filter
            (fun r => !decide (r ∈ v ++ [current])))
          (v ++ [current])
        refine ⟨current :: Δ, ?_, ?_⟩
        · simp only [bfsVisit, if_neg hv]
          rw [h1, List.append_assoc]
          rfl
        · simp only [bfsNew, if_neg hv]
          rw [h2, List.filter_cons]
          by_cases hs : current = start
          · simp [hs]
          · simp [hs]

theorem reachSetBFS_eq (g : ReferralGraph) (start : String) :
    ∀ (n : Nat) (q v acc : List String),
      reachSetBFS g start n q v acc = acc ++ bfsNew g start n q v := by
  intro n
  induction n with
  | zero => intro q v acc; simp [reachSetBFS, bfsNew]
  | succ n ih =>
    intro q v acc
    match q with
    | [] => simp [reachSetBFS, bfsNew]
    | current :: queue =>
      by_cases hv : current ∈ v
      · simp only [reachSetBFS, bfsNew, if_pos hv]; exact ih _ _ _
      · simp only [reachSetBFS, bfsNew, if_neg hv]
        rw [ih]
        by_cases hs : current = start
        · simp [hs]
        · simp [hs]

theorem reachBFS_eq (g : ReferralGraph) (start : String) :
    ∀ (n : Nat) (q v : List String) (c : Nat),
      reachBFS g start n q v c = c + (bfsNew g start n q v).length := by
  intro n
  induction n with
  | zero => intro q v c; simp [reachBFS, bfsNew]
  | succ n ih =>
    intro q v c
    match q with
    | [] => simp [reachBFS, bfsNew]
    | current :: queue =>
      by_cases hv : current ∈ v
      · simp only [reachBFS, bfsNew, if_pos hv]; exact ih _ _ _
      · simp only [reachBFS, bfsNew, if_neg hv]
        rw [ih]
        by_cases hs : current = start
        · simp [hs]
        · simp [hs]
          omega

theorem bfsVisit_nodup (g : ReferralGraph) :
    ∀ (n : Nat) (q v : List String), v.Nodup → (bfsVisit g n q v).Nodup := by
  intro n
  induction n with
  | zero => intro q v h; simpa only [bfsVisit]
  | succ n ih =>
    intro q v h
    match q with
    | [] => simpa only [bfsVisit]
    | current :: queue =>
      by_cases hv : current ∈ v
      · simp only [bfsVisit, if_pos hv]; exact ih _ _ h
      · simp only [bfsVisit, if_neg hv]
        exact ih _ _ (by simp [List.nodup_append, h, hv])

theorem phiBFS_init (g : ReferralGraph) (u : String) :
    phiBFS g [u] [] = bfsFuel g := by
  simp [phiBFS, bfsFuel, filter_not_mem_nil]

theorem bfsVisit_queue_sub (g : ReferralGraph) :
    ∀ (n : Nat) (q v : List String), phiBFS g q v ≤ n →
      ∀ x ∈ q, x ∈ bfsVisit g n q v := by
  intro n
  induction n with
  | zero =>
    intro q v hphi x hx
    match q with
    | [] => exact absurd hx (List.not_mem_nil x)
    | current :: queue => simp [phiBFS] at hphi
  | succ n ih =>
    intro q v hphi x hx
    match q with
    | [] => exact absurd hx (List.not_mem_nil x)
    | current :: queue =>
      by_cases hv : current ∈ v
      · simp only [bfsVisit, if_pos hv]
        rcases List.mem_cons.mp hx with rfl | hx'
        · exact bfsVisit_sub g n queue v hv
        · have hphi' : phiBFS g queue v ≤ n := by
            have := phiBFS_skip g current queue v
            omega
          exact ih queue v hphi' x hx'
      · simp only [bfsVisit, if_neg hv]
        have hphi' : phiBFS g
            (queue ++ (g.getDirectReferrals current).filter
              (fun r => !decide (r ∈ v ++ [current])))
            (v ++ [current]) ≤ n := by
          have := phiBFS_push g queue v hv
          omega
        rcases List.mem_cons.mp hx with rfl | hx'
        · exact bfsVisit_sub g n _ _
            (List.mem_append.mpr (Or.inr (List.mem_singleton.mpr rfl)))
        · exact ih _ _ hphi' x (List.mem_append.mpr (Or.inl hx'))

theorem bfsVisit_reach (g : ReferralGraph) :
    ∀ (n : Nat) (q v : List String) (x : String),
      x ∈ bfsVisit g n q v → x ∈ v ∨ ∃ y ∈ q, ReachDRL g y x := by
  intro n
  induction n with
  | zero => intro q v x h; simp only [bfsVisit] at h; exact Or.inl h
  | succ n ih =>
    intro q v x h
    match q with
    | [] => simp only [bfsVisit] at h; exact Or.inl h
    | current :: queue =>
      by_cases hv : current ∈ v
      · simp only [bfsVisit, if_pos hv] at h
        rcases ih _ _ _ h with h' | ⟨y, hy, hr⟩
        · exact Or.inl h'
        · exact Or.inr ⟨y, List.mem_cons_of_mem _ hy, hr⟩
      · simp only [bfsVisit, if_neg hv] at h
        rcases ih _ _ _ h with h' | ⟨y, hy, hr⟩
        · rcases List.mem_append.mp h' with h'' | h''
          · exact Or.inl h''
          · rcases List.mem_singleton.mp h''
            exact Or.inr ⟨x, List.mem_cons_self _ _, Relation.ReflTransGen.refl⟩
        · rcases List.mem_append.mp hy with hy' | hy'
          · exact Or.inr ⟨y, List.mem_cons_of_mem _ hy', hr⟩
          · have hedge : y ∈ g.getDirectReferrals current :=
              (List.mem_filter.mp hy').1
            exact Or.inr ⟨current, List.mem_cons_self _ _,
              Relation.ReflTransGen.head hedge hr⟩

theorem bfsVisit_closed (g : ReferralGraph) :
    ∀ (n : Nat) (q v : List String), phiBFS g q v ≤ n →
      (∀ a ∈ v, ∀ b ∈ g.getDirectReferrals a, b ∈ v ∨ b ∈ q) →
      ∀ a ∈ bfsVisit g n q v, ∀ b ∈ g.getDirectReferrals a,
        b ∈ bfsVisit g n q v := by
  intro n
  induction n with
  | zero =>
    intro q v hphi hcl a ha b hb
    match q with
    | [] =>
      simp only [bfsVisit] at ha ⊢
      rcases hcl a ha b hb with h' | h'
      · exact h'
      · exact absurd h' (List.not_mem_nil b)
    | current :: queue => simp [phiBFS] at hphi
  | succ n ih =>
    intro q v hphi hcl a ha b hb
    match q with
    | [] =>
      simp only [bfsVisit] at ha ⊢
      rcases hcl a ha b hb with h' | h'
      · exact h'
      · exact absurd h' (List.not_mem_nil b)
    | current :: queue =>
      by_cases hv : current ∈ v
      · simp only [bfsVisit, if_pos hv] at ha ⊢
        have hphi' : phiBFS g queue v ≤ n := by
          have := phiBFS_skip g current queue v
          omega
        have hcl' : ∀ a ∈ v, ∀ b ∈ g.getDirectReferrals a,
            b ∈ v ∨ b ∈ queue := by
          intro a' ha' b' hb'
          rcases hcl a' ha' b' hb' with h' | h'
          · exact Or.inl h'
          · rcases List.mem_cons.mp h' with rfl | h''
            · exact Or.inl hv
            · exact Or.inr h''
        exact ih queue v hphi' hcl' a ha b hb
      · simp only [bfsVisit, if_neg hv] at ha ⊢
        have hphi' : phiBFS g
            (queue ++ (g.getDirectReferrals current).filter
              (fun r => !decide (r ∈ v ++ [current])))
            (v ++ [current]) ≤ n := by
          have := phiBFS_push g queue v hv
          omega
        have hcl' : ∀ a ∈ v ++ [current], ∀ b ∈ g.getDirectReferrals a,
            b ∈ v ++ [current] ∨
            b ∈ queue ++ (g.getDirectReferrals current).filter
              (fun r => !decide (r ∈ v ++ [current])) := by
          intro a' ha' b' hb'
          rcases List.mem_append.mp ha' with ha'' | ha''
          · rcases hcl a' ha'' b' hb' with h' | h'
            · exact Or.inl (List.mem_append.mpr (Or.inl h'))
            · rcases List.mem_cons.mp h' with rfl | h''
              · exact Or.inl
                  (List.mem_append.mpr (Or.inr (List.mem_singleton.mpr rfl)))
              · exact Or.inr (List.mem_append.mpr (Or.inl h''))
          · obtain rfl : a' = current := List.mem_singleton.mp ha''
            by_cases hbv : b' ∈ v ++ [a']
            · exact Or.inl hbv
            · refine Or.inr (List.mem_append.mpr (Or.inr ?_))
              simp only [List.mem_filter]
              refine ⟨hb', ?_⟩
              simp only [List.mem_append, List.mem_singleton] at hbv
              simp [hbv]
        exact ih _ _ hphi' hcl' a ha b hb

theorem mem_bfsVisit_iff (g : ReferralGraph) (u x : String) :
    x ∈ bfsVisit g (bfsFuel g) [u] [] ↔ ReachDRL g u x := by
  constructor
  · intro h
    rcases bfsVisit_reach g (bfsFuel g) [u] [] x h with h' | ⟨y, hy, hr⟩
    · exact absurd h' (List.not_mem_nil x)
    · rcases List.mem_singleton.mp hy
      exact hr
  · intro h
    have hu : u ∈ bfsVisit g (bfsFuel g) [u] [] :=
      bfsVisit_queue_sub g (bfsFuel g) [u] [] (le_of_eq (phiBFS_init g u)) u
        (List.mem_singleton.mpr rfl)
    have hcl := bfsVisit_closed g (bfsFuel g) [u] []
      (le_of_eq (phiBFS_init g u)) (by simp)
    exact reach_mem_of_closed hcl hu h

theorem computeDownstreamReachSet_eq {g : ReferralGraph} {u : String}
    (h : g.hasUser u = true) :
    computeDownstreamReachSet g u
      = (bfsVisit g (bfsFuel g) [u] []).filter (fun x => !decide (x = u)) := by
  unfold computeDownstreamReachSet
  rw [if_neg (by simp [h])]
  obtain ⟨Δ, h1, h2⟩ := bfsVisit_decomp g u (bfsFuel g) [u] []
  rw [reachSetBFS_eq, h2, h1]
  simp

theorem mem_computeDownstreamReachSet_iff (g : ReferralGraph) (u x : String) :
    x ∈ computeDownstreamReachSet g u ↔ (ReachDRL g u x ∧ x ≠ u) := by
  cases h : g.hasUser u with
  | true =>
    rw [computeDownstreamReachSet_eq h]
    simp [List.mem_filter, mem_bfsVisit_iff]
  | false =>
    unfold computeDownstreamReachSet
    rw [if_pos (by simp [h])]
    simp only [List.not_mem_nil, false_iff]
    rintro ⟨hreach, hne⟩
    rcases Relation.ReflTransGen.cases_head hreach with rfl | ⟨y, hy, _⟩
    · exact hne rfl
    · have hnil : g.getDirectReferrals u = [] := by
        simp [ReferralGraph.getDirectReferrals, h]
      have : y ∈ g.getDirectReferrals u := hy
      rw [hnil] at this
      exact absurd this (List.not_mem_nil y)

theorem computeDownstreamReachSet_nodup (g : ReferralGraph) (u : String) :
    (computeDownstreamReachSet g u).Nodup := by
  cases h : g.hasUser u with
  | true =>
    rw [computeDownstreamReachSet_eq h]
    exact (bfsVisit_nodup g (bfsFuel g) [u] [] List.nodup_nil).filter _
  | false =>
    unfold computeDownstreamReachSet
    rw [if_pos (by simp [h])]
    exact List.nodup_nil

theorem calculateTotalReach_emptyCache_known {g : ReferralGraph} {u : String}
    (h : g.hasUser u = true) :
    (calculateTotalReach g emptyCache u).1
      = ((bfsVisit g (bfsFuel g) [u] []).filter
          (fun x => !decide (x = u))).length := by
  unfold calculateTotalReach
  have hget : mapGet emptyCache.totalReachCache u = none := rfl
  rw [hget]
  simp only [h, Bool.not_true, Bool.false_eq_true, if_false]
  obtain ⟨Δ, h1, h2⟩ := bfsVisit_decomp g u (bfsFuel g) [u] []
  rw [reachBFS_eq, h2, h1]
  simp

theorem calculateTotalReach_emptyCache_unknown {g : ReferralGraph} {u : String}
    (h : g.hasUser u = false) :
    (calculateTotalReach g emptyCache u).1 = 0 := by
  unfold calculateTotalReach
  have hget : mapGet emptyCache.totalReachCache u = none := rfl
  rw [hget]
  simp [h]

theorem totalReach_eq_reachSet_length (g : ReferralGraph) (u : String) :
    (calculateTotalReach g emptyCache u).1
      = (computeDownstreamReachSet g u).length := by
  cases h : g.hasUser u with
  | true => rw [calculateTotalReach_emptyCache_known h,
      computeDownstreamReachSet_eq h]
  | false =>
    rw [calculateTotalReach_emptyCache_unknown h]
    unfold computeDownstreamReachSet
    rw [if_pos (by simp [h])]
    rfl

/-! ### Invariant preservation across mutations -/

theorem mapHas_mapSet_mono {α : Type} {m : List (String × α)} {x : String}
    (k : String) (v : α) (h : mapHas m x = true) :
    mapHas (mapSet m k v) x = true := by
  rw [mapHas_iff_mem_keys] at h ⊢
  cases hk : mapHas m k with
  | true => rw [mapSet_keys_of_has v hk]; exact h
  | false => rw [mapSet_keys_of_not_has v hk]; exact List.mem_append.mpr (Or.inl h)

theorem not_adjEdge_self {g : ReferralGraph} (hacy : AcyclicAdj g)
    (v : String) : ¬ adjEdge g v v := by
  intro h
  exact hacy v (Relation.TransGen.single h)

theorem adjSucc_addEdgeAdj (g : ReferralGraph) (r c x : String) :
    adjSucc (addEdgeAdj g r c) x
      = if x = r then setAdd (adjSucc g r) c else adjSucc g x := by
  by_cases hx : x = r
  · subst hx
    simp only [adjSucc, addEdgeAdj, if_pos rfl]
    rw [mapGet_mapSet_self]
    rfl
  · simp only [adjSucc, addEdgeAdj, if_neg hx]
    rw [mapGet_mapSet_ne _ _ hx]

theorem adjEdge_addEdgeAdj_iff {g : ReferralGraph} {r c a b : String} :
    adjEdge (addEdgeAdj g r c) a b ↔ (adjEdge g a b ∨ (a = r ∧ b = c)) := by
  unfold adjEdge
  rw [adjSucc_addEdgeAdj]
  by_cases ha : a = r
  · subst ha
    rw [if_pos rfl, mem_setAdd]
    tauto
  · rw [if_neg ha]
    tauto

theorem reachAdj_addEdgeAdj_decomp {g : ReferralGraph} {r c : String} :
    ∀ {x y : String}, ReachAdj (addEdgeAdj g r c) x y →
      ReachAdj g x y ∨ (ReachAdj g x r ∧ ReachAdj g c y) := by
  intro x y h
  induction h with
  | refl => exact Or.inl Relation.ReflTransGen.refl
  | tail _ hedge ih =>
    rcases adjEdge_addEdgeAdj_iff.mp hedge with hold | ⟨rfl, rfl⟩
    · rcases ih with ih | ⟨ih1, ih2⟩
      · exact Or.inl (Relation.ReflTransGen.tail ih hold)
      · exact Or.inr ⟨ih1, Relation.ReflTransGen.tail ih2 hold⟩
    · rcases ih with ih | ⟨ih1, _⟩
      · exact Or.inr ⟨ih, Relation.ReflTransGen.refl⟩
      · exact Or.inr ⟨ih1, Relation.ReflTransGen.refl⟩

theorem acyclic_addEdgeAdj {g : ReferralGraph} {r c : String}
    (hacy : AcyclicAdj g) (hnreach : ¬ ReachAdj g c r) :
    AcyclicAdj (addEdgeAdj g r c) := by
  intro v hcyc
  obtain ⟨w, hedge, hpath⟩ := Relation.TransGen.head'_iff.mp hcyc
  rcases adjEdge_addEdgeAdj_iff.mp hedge with hold | ⟨rfl, rfl⟩
  · rcases reachAdj_addEdgeAdj_decomp hpath with hp | ⟨hp1, hp2⟩
    · exact hacy v (Relation.TransGen.head'_iff.mpr ⟨w, hold, hp⟩)
    · exact hnreach ((Relation.ReflTransGen.tail hp2 hold).trans hp1)
  · rcases reachAdj_addEdgeAdj_decomp hpath with hp | ⟨hp1, _⟩
    · exact hnreach hp
    · exact hnreach hp1

theorem reachAdj_mono_addEdgeAdj {g : ReferralGraph} {r c x y : String}
    (h : ReachAdj g x y) : ReachAdj (addEdgeAdj g r c) x y :=
  Relation.ReflTransGen.mono
    (fun _ _ he => adjEdge_addEdgeAdj_iff.mpr (Or.inl he)) h

theorem not_acyclic_addEdgeAdj_of_reach {g : ReferralGraph} {r c : String}
    (h : ReachAdj g c r) : ¬ AcyclicAdj (addEdgeAdj g r c) := by
  intro hacy
  apply hacy c
  exact Relation.TransGen.tail' (reachAdj_mono_addEdgeAdj h)
    (adjEdge_addEdgeAdj_iff.mpr (Or.inr ⟨rfl, rfl⟩))

theorem reach_iff_addEdge_cyclic {g : ReferralGraph} {r c : String}
    (hacy : AcyclicAdj g) :
    ReachAdj g c r ↔ ¬ AcyclicAdj (addEdgeAdj g r c) := by
  constructor
  · exact not_acyclic_addEdgeAdj_of_reach
  · intro hn
    by_contra hr
    exact hn (acyclic_addEdgeAdj hacy hr)

theorem wf_empty : WFGraph ReferralGraph.empty := by
  refine ⟨?_, ?_, ?_⟩
  · intro a b
    constructor
    · intro h
      simp [adjEdge, adjSucc, mapGet, ReferralGraph.empty] at h
    · rintro ⟨u, hu, _⟩
      simp [mapGet, ReferralGraph.empty] at hu
  · intro b u rr hu _
    simp [mapGet, ReferralGraph.empty] at hu
  · intro v h
    obtain ⟨w, hedge, _⟩ := Relation.TransGen.head'_iff.mp h
    simp [adjEdge, adjSucc, mapGet, ReferralGraph.empty] at hedge

theorem addUser_new_eq {g : ReferralGraph} {id : String}
    (h1 : ¬ isBlank id = true) (h2 : mapHas g.users id = false) :
    g.addUser id =
      ({ users := mapSet g.users id
           { id := id, directReferrals := [], isActive := true,
             referralCapacity := 10, referralsMade := 0, referrerId := none },
         adjacencyList := mapSet g.adjacencyList id [],
         reverseAdjacencyList := mapSet g.reverseAdjacencyList id [] },
       .ok true) := by
  unfold ReferralGraph.addUser
  rw [if_neg h1, if_neg (by simp [h2])]

theorem wf_addUser (g : ReferralGraph) (id : String) (hwf : WFGraph g) :
    WFGraph (g.addUser id).1 := by
  obtain ⟨hec, hrp, hacy⟩ := hwf
  by_cases h1 : isBlank id = true
  · unfold ReferralGraph.addUser
    rw [if_pos h1]
    exact ⟨hec, hrp, hacy⟩
  by_cases h2 : mapHas g.users id = true
  · unfold ReferralGraph.addUser
    rw [if_neg h1, if_pos (by simp [h2])]
    exact ⟨hec, hrp, hacy⟩
  have h2' : mapHas g.users id = false := by
    cases hh : mapHas g.users id
    · rfl
    · exact absurd hh h2
  rw [addUser_new_eq h1 h2']
  have hidget : mapGet g.users id = none := (mapGet_eq_none_iff _ _).mpr h2'
  have hadjid : adjSucc g id = [] := by
    rw [List.eq_nil_iff_forall_not_mem]
    intro b hb
    obtain ⟨u, hu, hr⟩ := (hec id b).mp hb
    have := hrp b u id hu hr
    rw [h2'] at this
    cases this
  have hsucc : ∀ x, adjSucc
      ({ users := mapSet g.users id
           { id := id, directReferrals := [], isActive := true,
             referralCapacity := 10, referralsMade := 0, referrerId := none },
         adjacencyList := mapSet g.adjacencyList id [],
         reverseAdjacencyList := mapSet g.reverseAdjacencyList id [] } :
        ReferralGraph) x = adjSucc g x := by
    intro x
    by_cases hx : x = id
    · subst hx
      simp only [adjSucc] at hadjid ⊢
      rw [mapGet_mapSet_self, hadjid]
      rfl
    · simp only [adjSucc]
      rw [mapGet_mapSet_ne _ _ hx]
  refine ⟨?_, ?_, ?_⟩
  · intro a b
    simp only [adjEdge, hsucc]
    by_cases hb : b = id
    · subst hb
      constructor
      · intro h
        obtain ⟨u, hu, _⟩ := (hec a b).mp h
        rw [hidget] at hu
        cases hu
      · rintro ⟨u, hu, hr⟩
        rw [mapGet_mapSet_self] at hu
        cases hu
        cases hr
    · rw [show (mapGet (mapSet g.users id
          { id := id, directReferrals := [], isActive := true,
            referralCapacity := 10, referralsMade := 0, referrerId := none }) b)
          = mapGet g.users b from mapGet_mapSet_ne _ _ hb]
      exact hec a b
  · intro b u rr hu hr
    by_cases hb : b = id
    · subst hb
      rw [mapGet_mapSet_self] at hu
      cases hu
      cases hr
    · rw [mapGet_mapSet_ne _ _ hb] at hu
      exact mapHas_mapSet_mono _ _ (hrp b u rr hu hr)
  · intro v h
    apply hacy v
    apply Relation.TransGen.mono _ h
    intro a b hab
    simpa only [adjEdge, hsucc] using hab

theorem addReferral_success_fst {g : ReferralGraph} {r c : String}
    {referrer candidate : User}
    (h1 : ¬(r = "" ∨ c = "")) (h2 : ¬ r = c)
    (hgr : mapGet g.users r = some referrer)
    (hgc : mapGet g.users c = some candidate)
    (h3 : candidate.referrerId = none)
    (h4 : g.validateAcyclicity r c = true) :
    (g.addReferral r c).1 =
      { users := mapSet (mapSet g.users c { candidate with referrerId := some r })
          r { referrer with
              directReferrals := setAdd referrer.directReferrals c,
              referralsMade := referrer.referralsMade + 1 },
        adjacencyList := mapSet g.adjacencyList r
          (setAdd ((mapGet g.adjacencyList r).getD []) c),
        reverseAdjacencyList := mapSet g.reverseAdjacencyList c
          (setAdd ((mapGet g.reverseAdjacencyList c).getD []) r) } := by
  unfold ReferralGraph.addReferral
  rw [if_neg h1, if_neg h2]
  simp [hgr, hgc, h3, h4]

theorem addReferral_success_snd {g : ReferralGraph} {r c : String}
    {referrer candidate : User}
    (h1 : ¬(r = "" ∨ c = "")) (h2 : ¬ r = c)
    (hgr : mapGet g.users r = some referrer)
    (hgc : mapGet g.users c = some candidate)
    (h3 : candidate.referrerId = none)
    (h4 : g.validateAcyclicity r c = true) :
    (g.addReferral r c).2 = .ok true := by
  unfold ReferralGraph.addReferral
  rw [if_neg h1, if_neg h2]
  simp [hgr, hgc, h3, h4]


theorem wf_of_success_parts {g2 g : ReferralGraph} {r c : String}
    {referrer candidate : User}
    (hec : EdgeConsistent g) (hrp : RefPointsToUser g) (hacy : AcyclicAdj g)
    (h2 : ¬ r = c)
    (hgr : mapGet g.users r = some referrer)
    (hgc : mapGet g.users c = some candidate)
    (h3 : candidate.referrerId = none)
    (hhr : mapHas g.users r = true)
    (hnreach : ¬ ReachAdj g c r)
    (hadj : g2.adjacencyList = (addEdgeAdj g r c).adjacencyList)
    (husers : g2.users =
      mapSet (mapSet g.users c { candidate with referrerId := some r }) r
        { referrer with
          directReferrals := setAdd referrer.directReferrals c,
          referralsMade := referrer.referralsMade + 1 }) :
    WFGraph g2 := by
  have hedge : ∀ a b, adjEdge g2 a b ↔ (adjEdge g a b ∨ (a = r ∧ b = c)) := by
    intro a b
    have heq : adjEdge g2 a b ↔ adjEdge (addEdgeAdj g r c) a b := by
      simp only [adjEdge, adjSucc, hadj]
    rw [heq, adjEdge_addEdgeAdj_iff]
  refine ⟨?_, ?_, ?_⟩
  · intro a b
    rw [hedge a b, husers]
    by_cases hb : b = c
    · subst hb
      rw [mapGet_mapSet_ne _ _ (fun h => h2 h.symm), mapGet_mapSet_self]
      constructor
      · rintro (hold | ⟨rfl, _⟩)
        · obtain ⟨u, hu, hru⟩ := (hec a b).mp hold
          rw [hgc] at hu
          cases hu
          rw [h3] at hru
          cases hru
        · exact ⟨_, rfl, rfl⟩
      · rintro ⟨u, hu, hru⟩
        cases hu
        simp only at hru
        cases hru
        exact Or.inr ⟨rfl, rfl⟩
    · by_cases hbr : b = r
      · subst hbr
        rw [mapGet_mapSet_self]
        constructor
        · rintro (hold | ⟨rfl, hcb⟩)
          · obtain ⟨u, hu, hru⟩ := (hec a b).mp hold
            rw [hgr] at hu
            cases hu
            exact ⟨_, rfl, hru⟩
          · exact absurd hcb hb
        · rintro ⟨u, hu, hru⟩
          cases hu
          simp only at hru
          exact Or.inl ((hec a b).mpr ⟨referrer, hgr, hru⟩)
      · rw [mapGet_mapSet_ne _ _ hbr, mapGet_mapSet_ne _ _ hb]
        constructor
        · rintro (hold | ⟨_, rfl⟩)
          · exact (hec a b).mp hold
          · exact absurd rfl hb
        · intro hu
          exact Or.inl ((hec a b).mpr hu)
  · intro b u rr hu hru
    rw [husers] at hu
    have hmono : ∀ x, mapHas g.users x = true → mapHas g2.users x = true := by
      intro x hx
      rw [husers]
      exact mapHas_mapSet_mono _ _ (mapHas_mapSet_mono _ _ hx)
    by_cases hbr : b = r
    · subst hbr
      rw [mapGet_mapSet_self] at hu
      cases hu
      simp only at hru
      exact hmono _ (hrp _ referrer _ hgr hru)
    · rw [mapGet_mapSet_ne _ _ hbr] at hu
      by_cases hbc : b = c
      · subst hbc
        rw [mapGet_mapSet_self] at hu
        cases hu
        simp only at hru
        cases hru
        exact hmono _ hhr
      · rw [mapGet_mapSet_ne _ _ hbc] at hu
        exact hmono rr (hrp b u rr hu hru)
  · intro v hv
    apply acyclic_addEdgeAdj hacy hnreach v
    apply Relation.TransGen.mono _ hv
    intro a b h
    exact adjEdge_addEdgeAdj_iff.mpr ((hedge a b).mp h)

theorem wf_addReferral (g : ReferralGraph) (r c : String) (hwf : WFGraph g) :
    WFGraph (g.addReferral r c).1 := by
  obtain ⟨hec, hrp, hacy⟩ := hwf
  by_cases h1 : r = "" ∨ c = ""
  · unfold ReferralGraph.addReferral
    rw [if_pos h1]
    exact ⟨hec, hrp, hacy⟩
  by_cases h2 : r = c
  · unfold ReferralGraph.addReferral
    rw [if_neg h1, if_pos h2]
    exact ⟨hec, hrp, hacy⟩
  cases hgr : mapGet g.users r with
  | none =>
    unfold ReferralGraph.addReferral
    rw [if_neg h1, if_neg h2]
    simp only [hgr]
    exact ⟨hec, hrp, hacy⟩
  | some referrer =>
    cases hgc : mapGet g.users c with
    | none =>
      unfold ReferralGraph.addReferral
      rw [if_neg h1, if_neg h2]
      simp only [hgr, hgc]
      exact ⟨hec, hrp, hacy⟩
    | some candidate =>
      by_cases h3 : candidate.referrerId.isSome = true
      · unfold ReferralGraph.addReferral
        rw [if_neg h1, if_neg h2]
        simp only [hgr, hgc, h3, if_true]
        exact ⟨hec, hrp, hacy⟩
      · have h3' : candidate.referrerId = none :=
          Option.not_isSome_iff_eq_none.mp (by simpa using h3)
        cases h4 : g.validateAcyclicity r c with
        | false =>
          unfold ReferralGraph.addReferral
          rw [if_neg h1, if_neg h2]
          simp only [hgr, hgc, h3', Option.isSome_none, Bool.false_eq_true,
            if_false, h4, Bool.not_false, if_true]
          exact ⟨hec, hrp, hacy⟩
        | true =>
          obtain ⟨hhr, hhc, hnreach⟩ :=
            (validateAcyclicity_eq_true_iff g r c).mp h4
          have hfst := addReferral_success_fst h1 h2 hgr hgc h3' h4
          refine wf_of_success_parts hec hrp hacy h2 hgr hgc h3' hhr hnreach
            ?_ ?_
          · rw [hfst]
            rfl
          · rw [hfst]

theorem wf_applyOp (g : ReferralGraph) (op : Op) (hwf : WFGraph g) :
    WFGraph (applyOp g op) := by
  cases op with
  | addUser id => exact wf_addUser g id hwf
  | addReferral r c => exact wf_addReferral g r c hwf

theorem wf_foldl (ops : List Op) :
    ∀ g, WFGraph g → WFGraph (ops.foldl applyOp g) := by
  induction ops with
  | nil => intro g h; simpa
  | cons op ops ih => intro g h; exact ih _ (wf_applyOp g op h)

theorem wf_runOps (ops : List Op) : WFGraph (runOps ops) :=
  wf_foldl ops ReferralGraph.empty wf_empty

theorem addReferral_error_unchanged (g : ReferralGraph) (r c : String)
    (e : ReferralError) (h : (g.addReferral r c).2 = .error e) :
    (g.addReferral r c).1 = g := by
  by_cases h1 : r = "" ∨ c = ""
  · unfold ReferralGraph.addReferral
    rw [if_pos h1]
  by_cases h2 : r = c
  · unfold ReferralGraph.addReferral
    rw [if_neg h1, if_pos h2]
  cases hgr : mapGet g.users r with
  | none =>
    unfold ReferralGraph.addReferral
    rw [if_neg h1, if_neg h2]
    simp only [hgr]
  | some referrer =>
    cases hgc : mapGet g.users c with
    | none =>
      unfold ReferralGraph.addReferral
      rw [if_neg h1, if_neg h2]
      simp only [hgr, hgc]
    | some candidate =>
      by_cases h3 : candidate.referrerId.isSome = true
      · unfold ReferralGraph.addReferral
        rw [if_neg h1, if_neg h2]
        simp only [hgr, hgc, h3, if_true]
      · have h3' : candidate.referrerId = none :=
          Option.not_isSome_iff_eq_none.mp (by simpa using h3)
        cases h4 : g.validateAcyclicity r c with
        | false =>
          unfold ReferralGraph.addReferral
          rw [if_neg h1, if_neg h2]
          simp only [hgr, hgc, h3', Option.isSome_none, Bool.false_eq_true,
            if_false, h4, Bool.not_false, if_true]
        | true =>
          have hsnd := addReferral_success_snd h1 h2 hgr hgc h3' h4
          rw [hsnd] at h
          cases h

theorem addUser_error_unchanged (g : ReferralGraph) (id : String)
    (e : ReferralError) (h : (g.addUser id).2 = .error e) :
    (g.addUser id).1 = g := by
  by_cases h1 : isBlank id = true
  · unfold ReferralGraph.addUser
    rw [if_pos h1]
  by_cases h2 : mapHas g.users id = true
  · unfold ReferralGraph.addUser
    rw [if_neg h1, if_pos (by simp [h2])]
  have h2' : mapHas g.users id = false := by
    cases hh : mapHas g.users id
    · rfl
    · exact absurd hh h2
  have := addUser_new_eq h1 h2'
  rw [this] at h
  cases h

theorem getReferrer_addUser_mono (g : ReferralGraph) (id v rr : String)
    (h : g.getReferrer v = some rr) :
    ((g.addUser id).1).getReferrer v = some rr := by
  by_cases h1 : isBlank id = true
  · unfold ReferralGraph.addUser
    rw [if_pos h1]
    exact h
  by_cases h2 : mapHas g.users id = true
  · unfold ReferralGraph.addUser
    rw [if_neg h1, if_pos (by simp [h2])]
    exact h
  have h2' : mapHas g.users id = false := by
    cases hh : mapHas g.users id
    · rfl
    · exact absurd hh h2
  rw [addUser_new_eq h1 h2']
  unfold ReferralGraph.getReferrer at h ⊢
  by_cases hv : v = id
  · subst hv
    rw [(mapGet_eq_none_iff _ _).mpr h2'] at h
    cases h
  · have : mapGet (mapSet g.users id
        { id := id, directReferrals := [], isActive := true,
          referralCapacity := 10, referralsMade := 0, referrerId := none }) v
        = mapGet g.users v := mapGet_mapSet_ne _ _ hv
    simp only at this ⊢
    rw [this]
    exact h

theorem getReferrer_addReferral_mono (g : ReferralGraph) (r c v rr : String)
    (h : g.getReferrer v = some rr) :
    ((g.addReferral r c).1).getReferrer v = some rr := by
  by_cases h1 : r = "" ∨ c = ""
  · unfold ReferralGraph.addReferral
    rw [if_pos h1]
    exact h
  by_cases h2 : r = c
  · unfold ReferralGraph.addReferral
    rw [if_neg h1, if_pos h2]
    exact h
  cases hgr : mapGet g.users r with
  | none =>
    unfold ReferralGraph.addReferral
    rw [if_neg h1, if_neg h2]
    simp only [hgr]
    exact h
  | some referrer =>
    cases hgc : mapGet g.users c with
    | none =>
      unfold ReferralGraph.addReferral
      rw [if_neg h1, if_neg h2]
      simp only [hgr, hgc]
      exact h
    | some candidate =>
      by_cases h3 : candidate.referrerId.isSome = true
      · unfold ReferralGraph.addReferral
        rw [if_neg h1, if_neg h2]
        simp only [hgr, hgc, h3, if_true]
        exact h
      · have h3' : candidate.referrerId = none :=
          Option.not_isSome_iff_eq_none.mp (by simpa using h3)
        cases h4 : g.validateAcyclicity r c with
        | false =>
          unfold ReferralGraph.addReferral
          rw [if_neg h1, if_neg h2]
          simp only [hgr, hgc, h3', Option.isSome_none, Bool.false_eq_true,
            if_false, h4, Bool.not_false, if_true]
          exact h
        | true =>
          rw [addReferral_success_fst h1 h2 hgr hgc h3' h4]
          unfold ReferralGraph.getReferrer at h ⊢
          simp only
          by_cases hvr : v = r
          · subst hvr
            rw [mapGet_mapSet_self]
            rw [hgr] at h
            simpa using h
          · rw [mapGet_mapSet_ne _ _ hvr]
            by_cases hvc : v = c
            · subst hvc
              rw [hgc] at h
              simp only [Option.bind] at h
              rw [h3'] at h
              cases h
            · rw [mapGet_mapSet_ne _ _ hvc]
              exact h

theorem getReferrer_applyOp_mono (g : ReferralGraph) (op : Op) (v rr : String)
    (h : g.getReferrer v = some rr) :
    (applyOp g op).getReferrer v = some rr := by
  cases op with
  | addUser id => exact getReferrer_addUser_mono g id v rr h
  | addReferral r c => exact getReferrer_addReferral_mono g r c v rr h

theorem getReferrer_foldl_mono (more : List Op) :
    ∀ (g : ReferralGraph) (v rr : String), g.getReferrer v = some rr →
      (more.foldl applyOp g).getReferrer v = some rr := by
  induction more with
  | nil => intro g v rr h; simpa
  | cons op ops ih =>
    intro g v rr h
    exact ih _ v rr (getReferrer_applyOp_mono g op v rr h)

theorem runOps_append (ops more : List Op) :
    runOps (ops ++ more) = more.foldl applyOp (runOps ops) := by
  simp [runOps, List.foldl_append]

theorem indeg_unique_of_wf {g : ReferralGraph} (hwf : WFGraph g)
    {x a b : String} (ha : adjEdge g a x) (hb : adjEdge g b x) : a = b := by
  obtain ⟨hec, -, -⟩ := hwf
  obtain ⟨u, hu, hru⟩ := (hec a x).mp ha
  obtain ⟨u', hu', hru'⟩ := (hec b x).mp hb
  rw [hu] at hu'
  cases hu'
  rw [hru] at hru'
  cases hru'
  rfl

theorem drlEdge_imp_adjEdge {g : ReferralGraph} {a b : String}
    (h : drlEdge g a b) : adjEdge g a b := by
  unfold drlEdge ReferralGraph.getDirectReferrals at h
  by_cases hu : g.hasUser a = true
  · rw [if_pos hu] at h
    exact h
  · rw [if_neg hu] at h
    exact absurd h (List.not_mem_nil b)

theorem acyclicDRL_of_acyclicAdj {g : ReferralGraph} (h : AcyclicAdj g) :
    AcyclicDRL g :=
  fun v hv => h v
    (Relation.TransGen.mono (fun _ _ he => drlEdge_imp_adjEdge he) hv)

/-! ### The greedy maximum-coverage loop -/

theorem findBestStep_fst_le (rs : List (String × List String))
    (cov : List String) (st : Option String × Nat × List String)
    (u : String) : st.2.1 ≤ (findBestStep rs cov st u).2.1 := by
  unfold findBestStep
  by_cases h : (newCands rs cov u).length > st.2.1
  · rw [if_pos h]
    exact le_of_lt h
  · rw [if_neg h]

theorem findBest_fold_ge_init (rs : List (String × List String))
    (cov : List String) :
    ∀ (l : List String) (st : Option String × Nat × List String),
      st.2.1 ≤ (l.foldl (findBestStep rs cov) st).2.1 := by
  intro l
  induction l with
  | nil => intro st; exact le_refl _
  | cons a l ih =>
    intro st
    exact le_trans (findBestStep_fst_le rs cov st a) (ih _)

theorem findBest_fold_ge_mem (rs : List (String × List String))
    (cov : List String) :
    ∀ (l : List String) (st : Option String × Nat × List String)
      (u : String), u ∈ l →
      (newCands rs cov u).length ≤ (l.foldl (findBestStep rs cov) st).2.1 := by
  intro l
  induction l with
  | nil => intro st u hu; exact absurd hu (List.not_mem_nil u)
  | cons a l ih =>
    intro st u hu
    rcases List.mem_cons.mp hu with rfl | hu'
    · have h1 : (newCands rs cov u).length ≤ (findBestStep rs cov st u).2.1 := by
        unfold findBestStep
        by_cases h : (newCands rs cov u).length > st.2.1
        · rw [if_pos h]
        · rw [if_neg h]
          omega
      exact le_trans h1 (findBest_fold_ge_init rs cov l _)
    · exact ih _ u hu'

theorem findBest_fold_inv (rs : List (String × List String))
    (cov : List String) :
    ∀ (l : List String) (st : Option String × Nat × List String),
      (∀ u, st.1 = some u → st.2.1 = (newCands rs cov u).length ∧
        st.2.2 = newCands rs cov u ∧ 0 < st.2.1) →
      ∀ u, (l.foldl (findBestStep rs cov) st).1 = some u →
        (l.foldl (findBestStep rs cov) st).2.1 = (newCands rs cov u).length ∧
        (l.foldl (findBestStep rs cov) st).2.2 = newCands rs cov u ∧
        0 < (l.foldl (findBestStep rs cov) st).2.1 := by
  intro l
  induction l with
  | nil => intro st hst u hu; exact hst u hu
  | cons a l ih =>
    intro st hst u hu
    apply ih _ _ u hu
    intro w hw
    unfold findBestStep at hw ⊢
    by_cases h : (newCands rs cov a).length > st.2.1
    · rw [if_pos h] at hw ⊢
      simp only at hw ⊢
      cases hw
      exact ⟨rfl, rfl, by omega⟩
    · rw [if_neg h] at hw ⊢
      exact hst w hw

theorem findBest_fold_origin (rs : List (String × List String))
    (cov : List String) :
    ∀ (l : List String) (st : Option String × Nat × List String)
      (u : String), (l.foldl (findBestStep rs cov) st).1 = some u →
      u ∈ l ∨ st.1 = some u := by
  intro l
  induction l with
  | nil => intro st u hu; exact Or.inr hu
  | cons a l ih =>
    intro st u hu
    rcases ih _ u hu with h | h
    · exact Or.inl (List.mem_cons_of_mem _ h)
    · unfold findBestStep at h
      by_cases hc : (newCands rs cov a).length > st.2.1
      · rw [if_pos hc] at h
        simp only at h
        cases h
        exact Or.inl (List.mem_cons_self _ _)
      · rw [if_neg hc] at h
        exact Or.inr h

theorem findBest_some {rs : List (String × List String)} {cov rem : List String}
    {u : String} {n : Nat} {nc : List String}
    (h : findBest rs cov rem = (some u, n, nc)) :
    u ∈ rem ∧ n = (newCands rs cov u).length ∧ nc = newCands rs cov u ∧
      0 < n := by
  unfold findBest at h
  have h1 : (rem.foldl (findBestStep rs cov) (none, 0, [])).1 = some u := by
    rw [h]
  have h2 := findBest_fold_inv rs cov rem (none, 0, [])
    (by intro w hw; cases hw) u h1
  rw [h] at h2
  have h3 := findBest_fold_origin rs cov rem (none, 0, []) u h1
  rcases h3 with h3 | h3
  · exact ⟨h3, h2.1, h2.2.1, h2.2.2⟩
  · cases h3

theorem findBest_bound {rs : List (String × List String)}
    {cov rem : List String} (u : String) (hu : u ∈ rem) :
    (newCands rs cov u).length ≤ (findBest rs cov rem).2.1 :=
  findBest_fold_ge_mem rs cov rem (none, 0, []) u hu

theorem newCands_subset_of_covered_subset {rs : List (String × List String)}
    {cov cov' : List String} (h : cov ⊆ cov') (u : String) :
    newCands rs cov' u ⊆ newCands rs cov u := by
  intro x hx
  unfold newCands at hx ⊢
  rw [mem_toSetList] at hx ⊢
  rw [List.mem_filter] at hx ⊢
  refine ⟨hx.1, ?_⟩
  have h2 := hx.2
  simp only [Bool.not_eq_true', decide_eq_false_iff_not] at h2 ⊢
  intro hc
  exact h2 (h hc)

theorem newCands_length_le {rs : List (String × List String)}
    {cov cov' : List String} (h : cov ⊆ cov') (u : String) :
    (newCands rs cov' u).length ≤ (newCands rs cov u).length :=
  ((toSetList_nodup _).subperm
    (newCands_subset_of_covered_subset h u)).length_le

theorem greedyLoop_append (rs : List (String × List String)) :
    ∀ (n : Nat) (remaining covered : List String)
      (acc : List (String × Nat)),
      greedyLoop rs n remaining covered acc
        = acc ++ greedyLoop rs n remaining covered [] := by
  intro n
  induction n with
  | zero => intro remaining covered acc; simp [greedyLoop]
  | succ n ih =>
    intro remaining covered acc
    by_cases hr : remaining.length = 0
    · simp [greedyLoop, hr]
    rcases hfb : findBest rs covered remaining with ⟨bu, br, bn⟩
    cases bu with
    | none => simp [greedyLoop, hr, hfb]
    | some best =>
      by_cases hbr : br = 0
      · simp [greedyLoop, hr, hfb, hbr]
      · simp only [greedyLoop, hr, if_false, hfb, hbr]
        rw [ih _ _ (acc ++ [(best, br)]), List.nil_append,
          ih _ _ [(best, br)]]
        simp

theorem greedyLoop_score_bound (rs : List (String × List String)) :
    ∀ (n : Nat) (remaining covered : List String) (B : Nat),
      (∀ u ∈ remaining, (newCands rs covered u).length ≤ B) →
      ∀ e ∈ greedyLoop rs n remaining covered [], e.2 ≤ B := by
  intro n
  induction n with
  | zero => intro remaining covered B _ e he; simp [greedyLoop] at he
  | succ n ih =>
    intro remaining covered B hB e he
    by_cases hr : remaining.length = 0
    · simp [greedyLoop, hr] at he
    rcases hfb : findBest rs covered remaining with ⟨bu, br, bn⟩
    cases bu with
    | none => simp [greedyLoop, hr, hfb] at he
    | some best =>
      by_cases hbr : br = 0
      · simp [greedyLoop, hr, hfb, hbr] at he
      · simp only [greedyLoop, hr, if_false, hfb, hbr] at he
        rw [greedyLoop_append] at he
        obtain ⟨hbest, hbrlen, -, -⟩ := findBest_some hfb
        rcases List.mem_append.mp he with he' | he'
        · rcases List.mem_singleton.mp he'
          calc br = (newCands rs covered best).length := hbrlen
            _ ≤ B := hB best hbest
        · apply ih (remaining.erase best)
            (covered ++ bn.filter (fun c => !decide (c ∈ covered))) B _ e he'
          intro u hu
          have hu' : u ∈ remaining := List.mem_of_mem_erase hu
          calc (newCands rs
              (covered ++ bn.filter (fun c => !decide (c ∈ covered))) u).length
              ≤ (newCands rs covered u).length :=
                newCands_length_le (List.subset_append_left _ _) u
            _ ≤ B := hB u hu'

theorem greedyLoop_chain (rs : List (String × List String)) :
    ∀ (n : Nat) (remaining covered : List String),
      List.Chain' (fun a b : String × Nat => b.2 ≤ a.2)
        (greedyLoop rs n remaining covered []) := by
  intro n
  induction n with
  | zero => intro remaining covered; simp [greedyLoop]
  | succ n ih =>
    intro remaining covered
    by_cases hr : remaining.length = 0
    · simp [greedyLoop, hr]
    rcases hfb : findBest rs covered remaining with ⟨bu, br, bn⟩
    cases bu with
    | none => simp [greedyLoop, hr, hfb]
    | some best =>
      by_cases hbr : br = 0
      · simp [greedyLoop, hr, hfb, hbr]
      · simp only [greedyLoop, hr, if_false, hfb, hbr]
        rw [greedyLoop_append, List.nil_append, List.singleton_append,
          List.chain'_cons']
        constructor
        · intro b hb
          have hbmem : b ∈ greedyLoop rs n (remaining.erase best)
              (covered ++ bn.filter (fun c => !decide (c ∈ covered))) [] :=
            List.mem_of_mem_head? hb
          apply greedyLoop_score_bound rs n _ _ br _ b hbmem
          intro u hu
          have hu' : u ∈ remaining := List.mem_of_mem_erase hu
          calc (newCands rs
              (covered ++ bn.filter (fun c => !decide (c ∈ covered))) u).length
              ≤ (newCands rs covered u).length :=
                newCands_length_le (List.subset_append_left _ _) u
            _ ≤ (findBest rs covered remaining).2.1 := findBest_bound u hu'
            _ = br := by rw [hfb]
        · exact ih _ _

/-! ### Cache-threaded reach computation and the top-k ranking -/

theorem trFresh_known {g : ReferralGraph} {u : String}
    (h : g.hasUser u = true) :
    trFresh g u = reachBFS g u (bfsFuel g) [u] [] 0 := by
  unfold trFresh calculateTotalReach
  rw [show mapGet emptyCache.totalReachCache u = none from rfl]
  simp [h]

theorem trFresh_unknown {g : ReferralGraph} {u : String}
    (h : g.hasUser u = false) : trFresh g u = 0 :=
  calculateTotalReach_emptyCache_unknown h

theorem calculateTotalReach_cacheOK {g : ReferralGraph}
    {cache : NetworkCache} (u : String)
    (hok : ∀ x n, mapGet cache.totalReachCache x = some n → n = trFresh g x) :
    (calculateTotalReach g cache u).1 = trFresh g u ∧
    (∀ x n, mapGet (calculateTotalReach g cache u).2.totalReachCache x
      = some n → n = trFresh g x) := by
  unfold calculateTotalReach
  cases hc : mapGet cache.totalReachCache u with
  | some n =>
    constructor
    · exact hok u n hc
    · exact hok
  | none =>
    cases hu : g.hasUser u with
    | false =>
      simp only [hu, Bool.not_false, if_true]
      exact ⟨(trFresh_unknown hu).symm, hok⟩
    | true =>
      simp only [hu, Bool.not_true, Bool.false_eq_true, if_false]
      refine ⟨(trFresh_known hu).symm, ?_⟩
      intro x m hx
      by_cases hxu : x = u
      · subst hxu
        rw [mapGet_mapSet_self] at hx
        cases hx
        exact (trFresh_known hu).symm
      · rw [mapGet_mapSet_ne _ _ hxu] at hx
        exact hok x m hx

theorem topFold_eq (g : ReferralGraph) :
    ∀ (users : List String) (acc : List (String × Nat))
      (cache : NetworkCache),
      (∀ x n, mapGet cache.totalReachCache x = some n → n = trFresh g x) →
      (users.foldl (topStep g) (acc, cache)).1
        = acc ++ (users.filter (fun u => decide (0 < trFresh g u))).map
            (fun u => (u, trFresh g u)) := by
  intro users
  induction users with
  | nil => intro acc cache _; simp
  | cons u users ih =>
    intro acc cache hok
    obtain ⟨hval, hok'⟩ := calculateTotalReach_cacheOK u hok
    simp only [List.foldl_cons, List.filter_cons]
    have hstep : topStep g (acc, cache) u
        = (if 0 < trFresh g u then acc ++ [(u, trFresh g u)] else acc,
           (calculateTotalReach g cache u).2) := by
      unfold topStep
      simp only [hval]
    rw [hstep]
    by_cases h : 0 < trFresh g u
    · rw [if_pos h]
      rw [show decide (0 < trFresh g u) = true from by simp [h]]
      rw [ih _ _ hok']
      simp
    · rw [if_neg h]
      rw [show decide (0 < trFresh g u) = false from by simp [h]]
      exact ih _ _ hok'

theorem insertDesc_perm (x : String × Nat) (l : List (String × Nat)) :
    List.Perm (insertDesc x l) (x :: l) := by
  induction l with
  | nil => exact List.Perm.refl _
  | cons y ys ih =>
    unfold insertDesc
    by_cases h : x.2 < y.2
    · rw [if_pos h]
      exact (List.Perm.cons y ih).trans (List.Perm.swap x y ys)
    · rw [if_neg h]

theorem sortByScoreDesc_perm (l : List (String × Nat)) :
    List.Perm (sortByScoreDesc l) l := by
  induction l with
  | nil => exact List.Perm.refl _
  | cons x xs ih =>
    unfold sortByScoreDesc
    exact (insertDesc_perm x (sortByScoreDesc xs)).trans (List.Perm.cons x ih)

theorem insertDesc_pairwise {l : List (String × Nat)} (x : String × Nat)
    (h : List.Pairwise (fun a b : String × Nat => b.2 ≤ a.2) l) :
    List.Pairwise (fun a b : String × Nat => b.2 ≤ a.2) (insertDesc x l) := by
  induction l with
  | nil => simp [insertDesc]
  | cons y ys ih =>
    rw [List.pairwise_cons] at h
    unfold insertDesc
    by_cases hcmp : x.2 < y.2
    · rw [if_pos hcmp]
      rw [List.pairwise_cons]
      constructor
      · intro z hz
        rcases List.mem_cons.mp ((insertDesc_perm x ys).mem_iff.mp hz)
          with rfl | hz'
        · exact le_of_lt hcmp
        · exact h.1 z hz'
      · exact ih h.2
    · rw [if_neg hcmp]
      rw [List.pairwise_cons]
      constructor
      · intro z hz
        rcases List.mem_cons.mp hz with rfl | hz'
        · omega
        · exact le_trans (h.1 z hz') (by omega)
      · exact List.pairwise_cons.mpr h

theorem sortByScoreDesc_pairwise (l : List (String × Nat)) :
    List.Pairwise (fun a b : String × Nat => b.2 ≤ a.2)
      (sortByScoreDesc l) := by
  induction l with
  | nil => simp [sortByScoreDesc]
  | cons x xs ih =>
    unfold sortByScoreDesc
    exact insertDesc_pairwise x ih

theorem getTopReferrersByReach_error_iff (g : ReferralGraph)
    (cache : NetworkCache) (k : Int) :
    (getTopReferrersByReach g cache k).1 = .error .INVALID_PARAMETER ↔
      k ≤ 0 := by
  unfold getTopReferrersByReach
  by_cases h : k ≤ 0
  · rw [if_pos h]
    simp [h]
  · rw [if_neg h]
    simp [h]

theorem getTopReferrersByReach_ok (g : ReferralGraph) (k : Int)
    (h : ¬ k ≤ 0) :
    (getTopReferrersByReach g emptyCache k).1
      = .ok ((sortByScoreDesc (rankedAll g)).take k.toNat) := by
  unfold getTopReferrersByReach
  rw [if_neg h]
  simp only
  have hfold := topFold_eq g g.getAllUsers [] emptyCache
    (by intro x n hx; cases hx)
  rw [hfold]
  rfl

theorem rankedAll_mem {g : ReferralGraph} {e : String × Nat}
    (h : e ∈ rankedAll g) : 0 < e.2 ∧ e.2 = trFresh g e.1 := by
  unfold rankedAll at h
  rw [List.mem_map] at h
  obtain ⟨u, hu, rfl⟩ := h
  rw [List.mem_filter] at hu
  have := hu.2
  simp only [decide_eq_true_eq] at this
  exact ⟨this, rfl⟩

theorem mem_rankedAll {g : ReferralGraph} {u : String}
    (hu : u ∈ g.getAllUsers) (hpos : 0 < trFresh g u) :
    (u, trFresh g u) ∈ rankedAll g := by
  unfold rankedAll
  rw [List.mem_map]
  refine ⟨u, ?_, rfl⟩
  rw [List.mem_filter]
  exact ⟨hu, by simp [hpos]⟩

/-! ### Error shapes of `addReferral` and cache population -/

theorem exists_mapGet_of_has {α : Type} {m : List (String × α)} {k : String}
    (h : mapHas m k = true) : ∃ v, mapGet m k = some v :=
  Option.isSome_iff_exists.mp ((mapGet_isSome_iff m k).mpr h)

theorem referrerId_none_of_getReferrer_none {g : ReferralGraph} {c : String}
    {candidate : User} (hgc : mapGet g.users c = some candidate)
    (h : g.getReferrer c = none) : candidate.referrerId = none := by
  unfold ReferralGraph.getReferrer at h
  rw [hgc] at h
  simpa using h

theorem addReferral_cycle_snd {g : ReferralGraph} {r c : String}
    {referrer candidate : User}
    (h1 : ¬(r = "" ∨ c = "")) (h2 : ¬ r = c)
    (hgr : mapGet g.users r = some referrer)
    (hgc : mapGet g.users c = some candidate)
    (h3 : candidate.referrerId = none)
    (h4 : g.validateAcyclicity r c = false) :
    (g.addReferral r c).2 = .error .CYCLE_DETECTED := by
  unfold ReferralGraph.addReferral
  rw [if_neg h1, if_neg h2]
  simp [hgr, hgc, h3, h4]

theorem addReferral_self_snd (g : ReferralGraph) {x : String}
    (hx : ¬ x = "") : (g.addReferral x x).2 = .error .SELF_REFERRAL := by
  unfold ReferralGraph.addReferral
  rw [if_neg (by tauto), if_pos rfl]

theorem addReferral_dup_snd {g : ReferralGraph} {r c : String}
    {referrer candidate : User}
    (h1 : ¬(r = "" ∨ c = "")) (h2 : ¬ r = c)
    (hgr : mapGet g.users r = some referrer)
    (hgc : mapGet g.users c = some candidate)
    (h3 : candidate.referrerId.isSome = true) :
    (g.addReferral r c).2 = .error .DUPLICATE_REFERRER := by
  unfold ReferralGraph.addReferral
  rw [if_neg h1, if_neg h2]
  simp [hgr, hgc, h3]

theorem calculateTotalReach_caches {g : ReferralGraph} {u : String}
    (h : g.hasUser u = true) :
    (calculateTotalReach g emptyCache u).2.totalReachCache
      = [(u, trFresh g u)] := by
  unfold calculateTotalReach
  rw [show mapGet emptyCache.totalReachCache u = none from rfl]
  simp only [h, Bool.not_true, Bool.false_eq_true, if_false]
  rw [trFresh_known h]
  rfl

theorem calculateTotalReach_hit {g : ReferralGraph} {cache : NetworkCache}
    {u : String} {n : Nat} (h : mapGet cache.totalReachCache u = some n) :
    (calculateTotalReach g cache u).1 = n := by
  unfold calculateTotalReach
  rw [h]

/-! ### The claims -/

/-- Claim C1: after every sequence of addUser/addReferral calls the graph
invariant holds — the direct-referral edge relation is acyclic, every node
has at most one referrer (in-degree at most one), and a referrer, once
assigned, is never reassigned by any further sequence of calls. -/
theorem claim_C1 :
    ∀ ops : List Op,
      AcyclicAdj (runOps ops) ∧
      (∀ x a b, adjEdge (runOps ops) a x → adjEdge (runOps ops) b x →
        a = b) ∧
      (∀ (more : List Op) (v rr : String),
        (runOps ops).getReferrer v = some rr →
        (runOps (ops ++ more)).getReferrer v = some rr) := by
  intro ops
  have hwf := wf_runOps ops
  refine ⟨hwf.2.2, ?_, ?_⟩
  · intro x a b ha hb
    exact indeg_unique_of_wf hwf ha hb
  · intro more v rr h
    rw [runOps_append]
    exact getReferrer_foldl_mono more _ v rr h

/-- Witness for C1: a concrete referrer assignment survives a later
mutation sequence. -/
theorem claim_C1_witness :
    (runOps [.addUser "a", .addUser "b",
      .addReferral "a" "b"]).getReferrer "b" = some "a" ∧
    (runOps ([.addUser "a", .addUser "b", .addReferral "a" "b"] ++
      [.addUser "c", .addReferral "b" "c"])).getReferrer "b" = some "a" :=
  ⟨by decide,
   (claim_C1 [.addUser "a", .addUser "b", .addReferral "a" "b"]).2.2
     [.addUser "c", .addReferral "b" "c"] "b" "a" (by decide)⟩

/-- Claim C2: `validateAcyclicity r c` is false exactly when an id is absent
or `c` already reaches `r` — equivalently, on an acyclic graph, exactly when
adding the edge `r → c` to the adjacency map would make the graph cyclic —
and under the other preconditions of `addReferral` the call succeeds exactly
when the predicate is true and fails with `CYCLE_DETECTED` exactly when it
is false. -/
theorem claim_C2 :
    ∀ (g : ReferralGraph) (r c : String),
      (g.validateAcyclicity r c = false ↔
        (g.hasUser r = false ∨ g.hasUser c = false ∨ ReachAdj g c r)) ∧
      (AcyclicAdj g →
        (g.validateAcyclicity r c = false ↔
          (g.hasUser r = false ∨ g.hasUser c = false ∨
            ¬ AcyclicAdj (addEdgeAdj g r c)))) ∧
      (¬ r = "" → ¬ c = "" → ¬ r = c → g.hasUser r = true →
        g.hasUser c = true → g.getReferrer c = none →
        ((g.addReferral r c).2 = .ok true ↔
          g.validateAcyclicity r c = true) ∧
        ((g.addReferral r c).2 = .error .CYCLE_DETECTED ↔
          g.validateAcyclicity r c = false)) := by
  intro g r c
  refine ⟨validateAcyclicity_eq_false_iff g r c, ?_, ?_⟩
  · intro hacy
    rw [validateAcyclicity_eq_false_iff g r c,
      reach_iff_addEdge_cyclic hacy]
    exact Iff.rfl
  intro hr0 hc0 hrc hhr hhc hrefnone
  obtain ⟨referrer, hgr⟩ := exists_mapGet_of_has hhr
  obtain ⟨candidate, hgc⟩ := exists_mapGet_of_has hhc
  have h3 : candidate.referrerId = none :=
    referrerId_none_of_getReferrer_none hgc hrefnone
  have h1 : ¬(r = "" ∨ c = "") := by tauto
  cases h4 : g.validateAcyclicity r c with
  | true =>
    have hsnd := addReferral_success_snd h1 hrc hgr hgc h3 h4
    refine ⟨⟨fun _ => rfl, fun _ => hsnd⟩, ⟨?_, ?_⟩⟩
    · intro he
      rw [hsnd] at he
      cases he
    · intro hf
      simp at hf
  | false =>
    have hsnd := addReferral_cycle_snd h1 hrc hgr hgc h3 h4
    refine ⟨⟨?_, ?_⟩, ⟨fun _ => rfl, fun _ => hsnd⟩⟩
    · intro he
      rw [hsnd] at he
      cases he
    · intro ht
      simp at ht

/-- Witness for C2: on the chain A→B→C, adding C→A is exactly a cycle
detection. -/
theorem claim_C2_witness :
    ((runOps [.addUser "A", .addUser "B", .addUser "C",
        .addReferral "A" "B", .addReferral "B" "C"]).validateAcyclicity
        "C" "A" = false ↔
      ((runOps [.addUser "A", .addUser "B", .addUser "C",
          .addReferral "A" "B", .addReferral "B" "C"]).hasUser "C" = false ∨
        (runOps [.addUser "A", .addUser "B", .addUser "C",
          .addReferral "A" "B", .addReferral "B" "C"]).hasUser "A" = false ∨
        ¬ AcyclicAdj (addEdgeAdj (runOps [.addUser "A", .addUser "B",
          .addUser "C", .addReferral "A" "B", .addReferral "B" "C"])
          "C" "A"))) ∧
    (((runOps [.addUser "A", .addUser "B", .addUser "C",
        .addReferral "A" "B", .addReferral "B" "C"]).addReferral "C" "A").2
        = .ok true ↔
      (runOps [.addUser "A", .addUser "B", .addUser "C",
        .addReferral "A" "B", .addReferral "B" "C"]).validateAcyclicity
        "C" "A" = true) ∧
    (((runOps [.addUser "A", .addUser "B", .addUser "C",
        .addReferral "A" "B", .addReferral "B" "C"]).addReferral "C" "A").2
        = .error .CYCLE_DETECTED ↔
      (runOps [.addUser "A", .addUser "B", .addUser "C",
        .addReferral "A" "B", .addReferral "B" "C"]).validateAcyclicity
        "C" "A" = false) :=
  ⟨(claim_C2 (runOps [.addUser "A", .addUser "B", .addUser "C",
      .addReferral "A" "B", .addReferral "B" "C"]) "C" "A").2.1
    (wf_runOps [.addUser "A", .addUser "B", .addUser "C",
      .addReferral "A" "B", .addReferral "B" "C"]).2.2,
   (claim_C2 (runOps [.addUser "A", .addUser "B", .addUser "C",
      .addReferral "A" "B", .addReferral "B" "C"]) "C" "A").2.2
    (by decide) (by decide) (by decide) (by decide) (by decide) (by decide)⟩

/-- Claim C3: a failed `addReferral` leaves the whole graph state — user
records (hence referrers, direct-referral sets and referral counts) and both
adjacency maps — exactly as before the call. -/
theorem claim_C3 :
    ∀ (g : ReferralGraph) (r c : String) (e : ReferralError),
      (g.addReferral r c).2 = .error e → (g.addReferral r c).1 = g :=
  addReferral_error_unchanged

/-- Witness for C3: a concrete failing call returns the unchanged graph. -/
theorem claim_C3_witness :
    (ReferralGraph.empty.addReferral "a" "a").2 = .error .SELF_REFERRAL ∧
    (ReferralGraph.empty.addReferral "a" "a").1 = ReferralGraph.empty :=
  ⟨rfl, claim_C3 ReferralGraph.empty "a" "a" .SELF_REFERRAL rfl⟩

/-- Claim C4: the checks run in source order — a self-referral on a node
not in the graph still reports `SELF_REFERRAL` (not `USER_NOT_FOUND`), and a
candidate that already has a referrer always yields `DUPLICATE_REFERRER`,
even when the edge would also have created a cycle. -/
theorem claim_C4 :
    (∀ (g : ReferralGraph) (x : String), ¬ x = "" → g.hasUser x = false →
      (g.addReferral x x).2 = .error .SELF_REFERRAL) ∧
    (∀ (g : ReferralGraph) (r c : String),
      ¬ r = "" → ¬ c = "" → ¬ r = c → g.hasUser r = true →
      g.hasUser c = true → (g.getReferrer c).isSome = true →
      (g.addReferral r c).2 = .error .DUPLICATE_REFERRER) := by
  constructor
  · intro g x hx _
    exact addReferral_self_snd g hx
  · intro g r c hr0 hc0 hrc hhr hhc href
    obtain ⟨referrer, hgr⟩ := exists_mapGet_of_has hhr
    obtain ⟨candidate, hgc⟩ := exists_mapGet_of_has hhc
    have h3 : candidate.referrerId.isSome = true := by
      unfold ReferralGraph.getReferrer at href
      rw [hgc] at href
      simpa using href
    exact addReferral_dup_snd (by tauto) hrc hgr hgc h3

/-- Witness for C4: a self-referral on an absent node, and a duplicate
referrer on the chain A→B→C where the edge C→B would also close a cycle. -/
theorem claim_C4_witness :
    (ReferralGraph.empty.addReferral "x" "x").2 = .error .SELF_REFERRAL ∧
    ((runOps [.addUser "A", .addUser "B", .addUser "C",
      .addReferral "A" "B", .addReferral "B" "C"]).addReferral "C" "B").2
      = .error .DUPLICATE_REFERRER :=
  ⟨claim_C4.1 ReferralGraph.empty "x" (by decide) (by decide),
   claim_C4.2 (runOps [.addUser "A", .addUser "B", .addUser "C",
       .addReferral "A" "B", .addReferral "B" "C"]) "C" "B"
     (by decide) (by decide) (by decide) (by decide) (by decide) (by decide)⟩

/-- Claim C5: on an acyclic graph, a fresh `calculateTotalReach u` counts
exactly the distinct nodes reachable from `u` along direct-referral edges,
excluding `u` — the count equals the length of any duplicate-free
enumeration of that set, so it is independent of traversal order — and an
unknown id yields 0 rather than an error. -/
theorem claim_C5 :
    ∀ (g : ReferralGraph) (u : String),
      (AcyclicDRL g → g.hasUser u = true →
        ∀ l : List String, l.Nodup →
        (∀ v, v ∈ l ↔ (ReachDRL g u v ∧ v ≠ u)) →
        (calculateTotalReach g emptyCache u).1 = l.length) ∧
      (g.hasUser u = false → (calculateTotalReach g emptyCache u).1 = 0) := by
  intro g u
  constructor
  · intro _ hu l hnd hiff
    rw [calculateTotalReach_emptyCache_known hu]
    have hfnd : ((bfsVisit g (bfsFuel g) [u] []).filter
        (fun x => !decide (x = u))).Nodup :=
      (bfsVisit_nodup g (bfsFuel g) [u] [] List.nodup_nil).filter _
    have hperm : List.Perm l ((bfsVisit g (bfsFuel g) [u] []).filter
        (fun x => !decide (x = u))) := by
      rw [List.perm_ext_iff_of_nodup hnd hfnd]
      intro a
      rw [hiff a, List.mem_filter, mem_bfsVisit_iff]
      simp
    exact hperm.length_eq.symm
  · exact calculateTotalReach_emptyCache_unknown

/-- Witness for C5: on the two-node graph a→b, the reach of a is the length
of the enumeration ["b"], and an unknown id gives 0. -/
theorem claim_C5_witness :
    (calculateTotalReach (runOps [.addUser "a", .addUser "b",
      .addReferral "a" "b"]) emptyCache "a").1 = ["b"].length ∧
    (calculateTotalReach (runOps [.addUser "a", .addUser "b",
      .addReferral "a" "b"]) emptyCache "zz").1 = 0 := by
  constructor
  · apply (claim_C5 (runOps [.addUser "a", .addUser "b",
      .addReferral "a" "b"]) "a").1
    · exact acyclicDRL_of_acyclicAdj (wf_runOps _).2.2
    · decide
    · decide
    · intro v
      have hbfs : bfsVisit (runOps [.addUser "a", .addUser "b",
          .addReferral "a" "b"])
          (bfsFuel (runOps [.addUser "a", .addUser "b",
            .addReferral "a" "b"])) ["a"] [] = ["a", "b"] := by decide
      rw [← mem_bfsVisit_iff, hbfs]
      constructor
      · intro h
        obtain rfl : v = "b" := List.mem_singleton.mp h
        exact ⟨by decide, by decide⟩
      · rintro ⟨hm, hne⟩
        rcases List.mem_cons.mp hm with rfl | hm'
        · exact absurd rfl hne
        · exact hm'
  · exact (claim_C5 (runOps [.addUser "a", .addUser "b",
      .addReferral "a" "b"]) "zz").2 (by decide)

/-- Claim C6: the scores of `calculateUniqueReachExpansion` are
non-increasing along the returned list, and membership in the union of the
selected users' computed reach sets coincides with reachability (excluding
the selected node itself) from at least one selected user. -/
theorem claim_C6 :
    ∀ g : ReferralGraph,
      List.Chain' (fun a b : String × Nat => b.2 ≤ a.2)
        ((calculateUniqueReachExpansion g emptyCache).1) ∧
      (∀ v, (∃ e ∈ (calculateUniqueReachExpansion g emptyCache).1,
          v ∈ computeDownstreamReachSet g e.1) ↔
        (∃ e ∈ (calculateUniqueReachExpansion g emptyCache).1,
          ReachDRL g e.1 v ∧ v ≠ e.1)) := by
  intro g
  constructor
  · show List.Chain' (fun a b : String × Nat => b.2 ≤ a.2)
      (greedyLoop (precomputeReachSets g emptyCache).1
        (g.getAllUsers.dedup).length (g.getAllUsers.dedup) [] [])
    exact greedyLoop_chain _ _ _ _
  · intro v
    constructor
    · rintro ⟨e, he, hv⟩
      exact ⟨e, he, (mem_computeDownstreamReachSet_iff g e.1 v).mp hv⟩
    · rintro ⟨e, he, hv⟩
      exact ⟨e, he, (mem_computeDownstreamReachSet_iff g e.1 v).mpr hv⟩

/-- Claim C7: on the chain A→B→C→D the metrics take exactly the documented
values: reaches 3/2/1/0, unique-reach-expansion [(A, 3)], flow centrality
{(B, 2), (C, 2)} up to order. -/
theorem claim_C7 :
    (calculateTotalReach (runOps [.addUser "A", .addUser "B", .addUser "C",
      .addUser "D", .addReferral "A" "B", .addReferral "B" "C",
      .addReferral "C" "D"]) emptyCache "A").1 = 3 ∧
    (calculateTotalReach (runOps [.addUser "A", .addUser "B", .addUser "C",
      .addUser "D", .addReferral "A" "B", .addReferral "B" "C",
      .addReferral "C" "D"]) emptyCache "B").1 = 2 ∧
    (calculateTotalReach (runOps [.addUser "A", .addUser "B", .addUser "C",
      .addUser "D", .addReferral "A" "B", .addReferral "B" "C",
      .addReferral "C" "D"]) emptyCache "C").1 = 1 ∧
    (calculateTotalReach (runOps [.addUser "A", .addUser "B", .addUser "C",
      .addUser "D", .addReferral "A" "B", .addReferral "B" "C",
      .addReferral "C" "D"]) emptyCache "D").1 = 0 ∧
    (calculateUniqueReachExpansion (runOps [.addUser "A", .addUser "B",
      .addUser "C", .addUser "D", .addReferral "A" "B", .addReferral "B" "C",
      .addReferral "C" "D"]) emptyCache).1 = [("A", 3)] ∧
    List.Perm ((calculateFlowCentrality (runOps [.addUser "A", .addUser "B",
      .addUser "C", .addUser "D", .addReferral "A" "B", .addReferral "B" "C",
      .addReferral "C" "D"]) emptyCache).1) [("B", 2), ("C", 2)] := by
  refine ⟨by decide, by decide, by decide, by decide, by decide, by decide⟩

/-- Claim C8: `getTopReferrersByReach k` errors with `INVALID_PARAMETER`
exactly when `k ≤ 0`; otherwise the result has at most `k` entries, is
sorted by non-increasing score, contains only strictly positive reach
scores, and when `k` covers every positive-reach user the result contains
them all. -/
theorem claim_C8 :
    ∀ (g : ReferralGraph) (k : Int),
      ((getTopReferrersByReach g emptyCache k).1
        = .error .INVALID_PARAMETER ↔ k ≤ 0) ∧
      (∀ res, (getTopReferrersByReach g emptyCache k).1 = .ok res →
        res.length ≤ k.toNat ∧
        List.Pairwise (fun a b : String × Nat => b.2 ≤ a.2) res ∧
        (∀ e ∈ res, 0 < e.2 ∧ e.2 = trFresh g e.1) ∧
        ((rankedAll g).length ≤ k.toNat →
          ∀ u ∈ g.getAllUsers, 0 < trFresh g u → (u, trFresh g u) ∈ res)) := by
  intro g k
  refine ⟨getTopReferrersByReach_error_iff g emptyCache k, ?_⟩
  intro res hres
  by_cases hk : k ≤ 0
  · exfalso
    have herr := (getTopReferrersByReach_error_iff g emptyCache k).mpr hk
    rw [herr] at hres
    cases hres
  · rw [getTopReferrersByReach_ok g k hk] at hres
    injection hres with hres'
    subst hres'
    refine ⟨?_, ?_, ?_, ?_⟩
    · rw [List.length_take]
      exact inf_le_left
    · exact List.Pairwise.sublist (List.take_sublist _ _)
        (sortByScoreDesc_pairwise _)
    · intro e he
      have he' : e ∈ sortByScoreDesc (rankedAll g) := List.take_subset _ _ he
      have he'' : e ∈ rankedAll g := (sortByScoreDesc_perm _).mem_iff.mp he'
      exact rankedAll_mem he''
    · intro hlen u hu hpos
      have hsl : (sortByScoreDesc (rankedAll g)).length ≤ k.toNat := by
        rw [(sortByScoreDesc_perm (rankedAll g)).length_eq]
        exact hlen
      rw [List.take_of_length_le hsl]
      exact (sortByScoreDesc_perm _).mem_iff.mpr (mem_rankedAll hu hpos)

/-- Witness for C8: `k = 0` errors; on the two-node graph a→b with `k = 5`
the ok-result [(a, 1)] satisfies the bound and the sortedness. -/
theorem claim_C8_witness :
    (getTopReferrersByReach (runOps [.addUser "a", .addUser "b",
      .addReferral "a" "b"]) emptyCache 0).1
      = .error .INVALID_PARAMETER ∧
    ([(("a" : String), (1 : Nat))]).length ≤ (5 : Int).toNat ∧
    List.Pairwise (fun a b : String × Nat => b.2 ≤ a.2) [("a", 1)] :=
  ⟨(claim_C8 (runOps [.addUser "a", .addUser "b",
      .addReferral "a" "b"]) 0).1.mpr (by decide),
   ((claim_C8 (runOps [.addUser "a", .addUser "b",
      .addReferral "a" "b"]) 5).2 [("a", 1)] rfl).1,
   ((claim_C8 (runOps [.addUser "a", .addUser "b",
      .addReferral "a" "b"]) 5).2 [("a", 1)] rfl).2.1⟩

/-- Claim C9: the analyzer cache starts empty, a graph mutation does not
invalidate it — re-querying a cached reach after a mutation returns the
pre-mutation value — while `clearCache` empties all three mappings, after
which the re-query reflects the mutated graph. -/
theorem claim_C9 :
    ∀ (g : ReferralGraph) (op : Op) (u : String),
      g.hasUser u = true →
      (calculateTotalReach (applyOp g op)
          ((calculateTotalReach g emptyCache u).2) u).1
        = (calculateTotalReach g emptyCache u).1 ∧
      clearCache ((calculateTotalReach g emptyCache u).2) = emptyCache ∧
      (calculateTotalReach (applyOp g op)
          (clearCache ((calculateTotalReach g emptyCache u).2)) u).1
        = (calculateTotalReach (applyOp g op) emptyCache u).1 ∧
      emptyCache.totalReachCache = [] ∧
      emptyCache.shortestPathCache = [] ∧
      emptyCache.reachSetsCache = [] := by
  intro g op u hu
  refine ⟨?_, rfl, rfl, rfl, rfl, rfl⟩
  have hhit : mapGet ((calculateTotalReach g emptyCache u).2).totalReachCache
      u = some (trFresh g u) := by
    rw [calculateTotalReach_caches hu]
    simp [mapGet]
  rw [calculateTotalReach_hit hhit]
  rfl

/-- Witness for C9: a concrete query–mutate–requery scenario on the graph
{a, b} with the mutation adding the edge a→b. -/
theorem claim_C9_witness :
    (calculateTotalReach (applyOp (runOps [.addUser "a", .addUser "b"])
        (.addReferral "a" "b"))
        ((calculateTotalReach (runOps [.addUser "a", .addUser "b"])
          emptyCache "a").2) "a").1
      = (calculateTotalReach (runOps [.addUser "a", .addUser "b"])
          emptyCache "a").1 ∧
    clearCache ((calculateTotalReach (runOps [.addUser "a", .addUser "b"])
        emptyCache "a").2) = emptyCache ∧
    (calculateTotalReach (applyOp (runOps [.addUser "a", .addUser "b"])
        (.addReferral "a" "b"))
        (clearCache ((calculateTotalReach (runOps [.addUser "a",
          .addUser "b"]) emptyCache "a").2)) "a").1
      = (calculateTotalReach (applyOp (runOps [.addUser "a", .addUser "b"])
          (.addReferral "a" "b")) emptyCache "a").1 ∧
    emptyCache.totalReachCache = [] ∧
    emptyCache.shortestPathCache = [] ∧
    emptyCache.reachSetsCache = [] :=
  claim_C9 (runOps [.addUser "a", .addUser "b"]) (.addReferral "a" "b") "a"
    (by decide)

/-- Claim C10: the counting BFS of `calculateTotalReach` (fresh cache) and
the set-building BFS of `computeDownstreamReachSet` realise the same reach
notion — the count equals the cardinality of the set for every graph and
id, with 0 and the empty set for unknown ids. -/
theorem claim_C10 :
    ∀ (g : ReferralGraph) (u : String),
      (calculateTotalReach g emptyCache u).1
        = (computeDownstreamReachSet g u).length ∧
      (g.hasUser u = false →
        (calculateTotalReach g emptyCache u).1 = 0 ∧
        computeDownstreamReachSet g u = []) := by
  intro g u
  refine ⟨totalReach_eq_reachSet_length g u, ?_⟩
  intro h
  refine ⟨calculateTotalReach_emptyCache_unknown h, ?_⟩
  unfold computeDownstreamReachSet
  rw [if_pos (by simp [h])]

/-- Witness for C10: the unknown-id case on the empty graph. -/
theorem claim_C10_witness :
    (calculateTotalReach (runOps []) emptyCache "x").1 = 0 ∧
    computeDownstreamReachSet (runOps []) "x" = [] :=
  (claim_C10 (runOps []) "x").2 (by decide)
